import Mathlib

/-!
Verification development for the "Virgin vs Chad" meme generator
(src/chad_generator/generator.py).

The Python source is shallowly embedded below.  Pure string processing
(the text wrapper `_wrap_text`, which delegates to Python's
`textwrap.wrap(text, width, break_long_words=False)`, and the point
formatter `_format_point`) is translated into executable Lean functions
over `List Char` / `String`.  The external collaborators are made
explicit parameters:

* the outcome of the Anthropic API call and of `json.loads` is an
  `ApiResult` value (the generator cannot observe more of it than the
  parsed pair of lists, a parse failure, or an exception);
* the pseudo-random choices of `random.sample` and `random.uniform`
  are supplied as explicit tapes (a list of naturals / functions to
  rationals), so that sampling without replacement and bounded jitter
  are modelled faithfully while the randomness itself stays abstract;
* `exit(1)` / `exit(2)` and the `return 0` sentinel of
  `generate_meme` become constructors of the result types.

Geometry (`TextLayoutManager`) is modelled over `ℚ`.  The Python source
uses IEEE doubles; for every concrete quantity the claims mention
(canvas 1600x1000, anchors at 35%/65%/50%, spreads at 5%/10%/70%/95% of
1600, a 400 px window and steps 400/(n-1) for n = 5) the double
computations are exact and agree with the rational ones.
-/

/-! ### Python character classes

`pySpace6` is `string.whitespace` = tab, newline, vertical tab, form
feed, carriage return, space: the explicit character class
`[\t\n\x0b\x0c\r ]` that `textwrap`'s word-separation regex uses for
"any whitespace" and "end of word" (it does not use `\s`).

`pyUniSpace` is the full set accepted by `str.isspace()`, which is what
`str.strip()` removes; `textwrap` tests `chunk.strip() == ''` when
dropping whitespace chunks, and `_format_point` calls `str.strip()`.

`isWordChar` and `isLetterCh` model `\w` and `[^\d\W]` of the
word-separation regex (ASCII range; the repository's templates, prompt
and captions are ASCII plus the bullet glyph, for which the classes
agree with Python's unicode-aware ones). -/

def pySpace6 (c : Char) : Bool :=
  c == ' ' || c == '\t' || c == '\n' || c == '\x0b' || c == '\x0c' || c == '\r'

def pyUniSpace (c : Char) : Bool :=
  ([0x20, 0x09, 0x0a, 0x0b, 0x0c, 0x0d, 0x1c, 0x1d, 0x1e, 0x1f,
    0x85, 0xa0, 0x1680, 0x2028, 0x2029, 0x202f, 0x205f, 0x3000].contains c.toNat)
  || (decide (0x2000 ≤ c.toNat) && decide (c.toNat ≤ 0x200a))

def isWordChar (c : Char) : Bool :=
  c.isAlphanum || c == '_'

def isLetterCh (c : Char) : Bool :=
  isWordChar c && !c.isDigit

/-- The look-behind class `[\w!"\x27&.,?]` that licenses an em-dash
run. -/
def isEmDashPrev (c : Char) : Bool :=
  isWordChar c || c == '!' || c == '"' || c == '\x27' || c == '&' ||
  c == '.' || c == ',' || c == '?'

/-! ### `str.expandtabs` and `textwrap`'s whitespace munging

`textwrap.TextWrapper._munge_whitespace` (with the default options
`expand_tabs=True`, `replace_whitespace=True`, `tabsize=8`) first
expands tabs and then translates each of the characters of
`string.whitespace` (tab, newline, vertical tab, form feed, carriage
return) to a plain space.
-/

def expandTabs : Nat → List Char → List Char
  | _, [] => []
  | col, c :: rest =>
    if c = '\t' then
      List.replicate (8 - col % 8) ' ' ++ expandTabs (col + (8 - col % 8)) rest
    else if c = '\n' ∨ c = '\r' then
      c :: expandTabs 0 rest
    else
      c :: expandTabs (col + 1) rest

def isMungedChar (c : Char) : Bool :=
  c == '\t' || c == '\n' || c == '\x0b' || c == '\x0c' || c == '\r'

def munge (cs : List Char) : List Char :=
  (expandTabs 0 cs).map (fun c => if isMungedChar c then ' ' else c)

/-! ### The `textwrap` word-separation regex

`TextWrapper.wordsep_re` (used because `break_on_hyphens=True` by
default) tiles the munged text into chunks: runs of the six whitespace
characters, em-dash runs `(?<=[\w!"\x27&.,?])-{2,}(?=\w)`, and words
`[^\t\n\x0b\x0c\r ]+?` terminated either by a permitted hyphen break
`-(?:(?<=[^\d\W]{2}-)|(?<=[^\d\W]-[^\d\W]-))(?=[^\d\W]-?[^\d\W])`,
by whitespace/end of text, or just before an em-dash run
`(?<=[\w!"\x27&.,?])(?=-{2,}\w)`.  The look-behinds are evaluated
against the reversed list of all characters already consumed (`hist`),
the look-aheads against the remaining characters.
-/

/-- Look-behind of the hyphen break: the two characters before the
hyphen are letters (regex fragment seen from after the consumed
hyphen: a three-character look-behind for letter, letter, hyphen). -/
def lbTwoLetters (hist : List Char) : Bool :=
  match hist with
  | a :: b :: _ => isLetterCh a && isLetterCh b
  | _ => false

/-- Alternative look-behind of the hyphen break: the three characters
before the hyphen are letter, hyphen, letter (the chained-compound
case, e.g. "one-by-one"). -/
def lbChained (hist : List Char) : Bool :=
  match hist with
  | a :: b :: c :: _ => isLetterCh a && b == '-' && isLetterCh c
  | _ => false

/-- Look-ahead of the hyphen break after the consumed hyphen: a letter,
an optional hyphen, and a letter. -/
def laHyphen (l : List Char) : Bool :=
  match l with
  | a :: b :: c :: _ => isLetterCh a && (isLetterCh b || (b == '-' && isLetterCh c))
  | [a, b] => isLetterCh a && isLetterCh b
  | _ => false

/-- Look-ahead for an em-dash run: two or more hyphens followed by a
word character. -/
def laEmDash (l : List Char) : Bool :=
  match l with
  | a :: b :: _ =>
    a == '-' && b == '-' &&
      (match l.dropWhile (fun c => c == '-') with
       | c :: _ => isWordChar c
       | [] => false)
  | _ => false

/-- The lazy word match `\S+?(...)`: `cur` is the reversed non-empty
sequence of characters consumed so far, `hist` the reversed full text
before the current position (so `hist` begins with `cur`), `rest` the
remaining text.  Returns the finished chunk and the remaining text. -/
def wordLoop (hist cur : List Char) : List Char → List Char × List Char
  | [] => (cur.reverse, [])
  | c :: rs =>
    if c == '-' && (lbTwoLetters hist || lbChained hist) && laHyphen rs then
      (('-' :: cur).reverse, rs)
    else if pySpace6 c then
      (cur.reverse, c :: rs)
    else if (match hist with | h :: _ => isEmDashPrev h | [] => false) && laEmDash (c :: rs) then
      (cur.reverse, c :: rs)
    else
      wordLoop (c :: hist) (c :: cur) rs

/-- One pass of `wordsep_re` over the munged text, producing the chunk
list (fuel-driven so that the definition reduces in the kernel; the
fuel is always at least `rest.length + 1` when called through
`splitChunks`). -/
def splitChunksF : Nat → List Char → List Char → List (List Char)
  | 0, _, _ => []
  | fuel + 1, done, rest =>
    match rest with
    | [] => []
    | c :: rs =>
      if pySpace6 c then
        let sp := rest.takeWhile pySpace6
        sp :: splitChunksF fuel (sp.reverse ++ done) (rest.dropWhile pySpace6)
      else if (match done with | d :: _ => isEmDashPrev d | [] => false) && laEmDash rest then
        let run := rest.takeWhile (fun x => x == '-')
        run :: splitChunksF fuel (run.reverse ++ done) (rest.dropWhile (fun x => x == '-'))
      else
        let p := wordLoop (c :: done) [c] rs
        p.1 :: splitChunksF fuel (p.1.reverse ++ done) p.2

def splitChunks (cs : List Char) : List (List Char) :=
  splitChunksF (cs.length + 1) [] cs

/-! ### `TextWrapper._wrap_chunks` with `break_long_words=False`

Greedy line filling: chunks are taken while the accumulated length
stays within the width; a chunk longer than the width is placed alone
on a line (`_handle_long_word` with `break_long_words=False` only
appends it when the current line is empty); `drop_whitespace=True`
deletes a whitespace chunk at the start of every line but the first and
at the end of every line.
-/

def isWsChunk (ch : List Char) : Bool := ch.all pyUniSpace

def greedyTake (w : Nat) (curlen : Nat) : List (List Char) → List (List Char) × List (List Char)
  | [] => ([], [])
  | ch :: rest =>
    if curlen + ch.length ≤ w then
      let p := greedyTake w (curlen + ch.length) rest
      (ch :: p.1, p.2)
    else ([], ch :: rest)

/-- Drop a trailing all-whitespace chunk from the current line
(`if cur_line and cur_line[-1].strip() == '': del cur_line[-1]`). -/
def dropTrailingWs (t : List (List Char)) : List (List Char) :=
  match t.getLast? with
  | some last => if isWsChunk last then t.dropLast else t
  | none => t

/-- Emit the line if any chunks remain on it. -/
def emitLine (cur : List (List Char)) : Option (List Char) :=
  if cur.isEmpty then none else some cur.flatten

/-- The body of one iteration of `_wrap_chunks`'s outer loop after the
leading-whitespace drop: greedy fill, `_handle_long_word` (which with
`break_long_words=False` appends the over-long chunk only to an empty
line), and the trailing-whitespace drop. -/
def lineStepCore (w : Nat) (chunks1 : List (List Char)) :
    Option (List Char) × List (List Char) :=
  let p := greedyTake w 0 chunks1
  let q := match p.2 with
    | ch :: rs => if w < ch.length && p.1.isEmpty then ([ch], rs) else (p.1, p.2)
    | [] => (p.1, ([] : List (List Char)))
  (emitLine (dropTrailingWs q.1), q.2)

/-- Build one output line: returns the line (if any) and the chunks
still to be processed.  `started` records whether a previous line was
already emitted (Python's `and lines` test guarding the drop of a
leading whitespace chunk). -/
def lineStep (w : Nat) (started : Bool) (chunks : List (List Char)) :
    Option (List Char) × List (List Char) :=
  lineStepCore w (match chunks with
    | ch :: rest => if started && isWsChunk ch then rest else chunks
    | [] => [])

def wrapChunksF (w : Nat) : Nat → Bool → List (List Char) → List (List Char)
  | 0, _, _ => []
  | _ + 1, _, [] => []
  | fuel + 1, started, chunks =>
    let p := lineStep w started chunks
    match p.1 with
    | some l => l :: wrapChunksF w fuel true p.2
    | none => wrapChunksF w fuel started p.2

def wrapChunks (w : Nat) (chunks : List (List Char)) : List (List Char) :=
  wrapChunksF w (chunks.length + 1) false chunks

/-- `textwrap.wrap(text, width, break_long_words=False)`: raises
`ValueError` for a non-positive width (width is a natural here, so only
0), otherwise munges, chunks and wraps. -/
def pyWrap (text : String) (width : Nat) : Except String (List String) :=
  if width = 0 then .error "invalid width 0 (must be > 0)"
  else .ok ((wrapChunks width (splitChunks (munge text.data))).map (fun l => String.mk l))

/-! ### `ArgumentGenerator._wrap_text` and `_format_point` -/

/-- Python's "\n".join. -/
def joinNLData : List (List Char) → List Char
  | [] => []
  | [x] => x
  | x :: y :: rest => x ++ '\n' :: joinNLData (y :: rest)

def joinNL (ls : List String) : String :=
  String.mk (joinNLData (ls.map String.data))

/-- Python's str.split("\n"). -/
def splitNlAux : List Char → List Char → List (List Char)
  | [], acc => [acc.reverse]
  | c :: rest, acc =>
    if c = '\n' then acc.reverse :: splitNlAux rest []
    else splitNlAux rest (c :: acc)

def pySplitNl (s : String) : List String :=
  (splitNlAux s.data []).map (fun l => String.mk l)

/-- Python's str.lstrip("- *•"): drop leading characters drawn from
that four-character set. -/
def bulletChars : List Char := ['-', ' ', '*', '•']

def pyLstripBullets (s : String) : String :=
  String.mk (s.data.dropWhile (fun c => bulletChars.contains c))

/-- Python's str.strip(): drop unicode whitespace from both ends. -/
def pyStrip (s : String) : String :=
  String.mk (((s.data.dropWhile pyUniSpace).reverse.dropWhile pyUniSpace).reverse)

/-- `ArgumentGenerator._wrap_text(text, max_chars=25)`: wrap and join
with newlines. -/
def _wrap_text (text : String) (max_chars : Nat := 25) : Except String String :=
  (pyWrap text max_chars).map joinNL

/-- `ArgumentGenerator._format_point`: strip bullet-like prefixes and
surrounding whitespace, wrap at the default budget of 25 characters,
put the bullet glyph on the first line and a two-space indent on every
continuation line.  The error branch of `_wrap_text` is unreachable
(the width 25 is positive) and the split of a string is never empty. -/
def _format_point (point : String) : String :=
  let p := pyStrip (pyLstripBullets point)
  let wrapped := match _wrap_text p 25 with | .ok s => s | .error _ => ""
  match pySplitNl wrapped with
  | [] => ""
  | l0 :: rest => joinNL (("• " ++ l0) :: rest.map (fun l => "  " ++ l))

/-! ### `ArgumentGenerator`

`__init__` stores `use_api = bool(api_key)` (false for `None` and for
the empty string) and, when true, constructs the API client.  Note that
`generate_points` never consults `use_api`: it unconditionally runs the
API call inside a `try` whose `except Exception` handler prints and
calls `exit(1)`; an inner `except json.JSONDecodeError` calls
`exit(2)`.  When the object was built without a key, `self.client`
does not exist and the attribute access raises `AttributeError`, which
the outer handler turns into `exit(1)`.

The observable outcome of the API call plus `json.loads` is modelled by
`ApiResult`: the call raised, the response text was not JSON, the JSON
lacked the `"virgin_points"`/`"chad_points"` keys (`KeyError`, caught
by the outer handler), or both keyed lists were extracted.  The JSON
format puts `virgin_points` first, `chad_points` second, as in the
prompt's required output format. -/

structure ArgumentGenerator where
  use_api : Bool

def ArgumentGenerator.init (api_key : Option String) : ArgumentGenerator :=
  ⟨match api_key with
   | none => false
   | some k => k.length != 0⟩

inductive ApiResult where
  | raisesException : ApiResult
  | badJson : ApiResult
  | missingKey : ApiResult
  | parsed (virgin_points chad_points : List String) : ApiResult
deriving DecidableEq

/-- Result of `generate_points`: either the returned pair of formatted
caption lists (first component the chad side, second the virgin side),
or process termination through `exit`. -/
inductive GPResult where
  | ok (first second : List String) : GPResult
  | exitCode (code : Nat) : GPResult
deriving DecidableEq

def GPResult.isOk : GPResult → Bool
  | .ok _ _ => true
  | .exitCode _ => false

def ArgumentGenerator.generate_points (g : ArgumentGenerator) (api : ApiResult)
    (num_points : Nat) : GPResult :=
  if !g.use_api then
    -- AttributeError: self.client is unset; caught by `except Exception` -> exit(1)
    .exitCode 1
  else
    match api with
    | .raisesException => .exitCode 1
    | .badJson => .exitCode 2
    | .missingKey => .exitCode 1
    | .parsed virgin_points chad_points =>
      if virgin_points.length ≠ num_points ∨ chad_points.length ≠ num_points then
        -- raise ValueError(...), caught by `except Exception` -> exit(1)
        .exitCode 1
      else
        .ok (chad_points.map _format_point) (virgin_points.map _format_point)

/-! ### `_generate_themed_points`

The fixed template lists, interpolated with the topic by f-strings, and
`random.sample(templates, num_points)`.  `random.sample` returns
`num_points` elements drawn at pairwise-distinct positions and raises
`ValueError("Sample larger than population or is negative")` when the
requested count exceeds the population.  The random choices are
supplied by a tape of naturals, each reduced modulo the number of
elements still available, so that any without-replacement selection is
expressible and none other. -/

def chad_templates (topic : String) : List String :=
  [topic ++ " feared by gods",
   "Makes chads stronger",
   topic ++ " energy radiates",
   "Never needs practice",
   "Crushes competition",
   "Has 300 IQ moves",
   "Gigachad approves",
   "Sigma " ++ topic ++ " grindset"]

def virgin_templates (topic : String) : List String :=
  ["Mom still buys " ++ topic,
   "Scared of " ++ topic ++ " power",
   "Needs " ++ topic ++ " manual",
   "Everyone mocks him",
   "Can\x27t handle basics",
   "Cries at " ++ topic,
   "Zero skill level",
   "Still uses training mode"]

def sampleAux {α : Type} : Nat → List α → List Nat → List α
  | 0, _, _ => []
  | k + 1, l, tape =>
    let i := tape.headD 0 % l.length
    match l[i]? with
    | none => []
    | some a => a :: sampleAux k (l.eraseIdx i) tape.tail

def random_sample {α : Type} (l : List α) (k : Nat) (tape : List Nat) :
    Except String (List α) :=
  if l.length < k then .error "Sample larger than population or is negative"
  else .ok (sampleAux k l tape)

def _generate_themed_points (topic : String) (is_chad : Bool) (num_points : Nat)
    (tape : List Nat) : Except String (List String) :=
  let templates := if is_chad then chad_templates topic else virgin_templates topic
  (random_sample templates num_points tape).map (List.map _format_point)

/-! ### `TextLayoutManager`

Geometry over `ℚ`; `int()` truncation toward zero is `pyInt`.  The
horizontal/vertical jitter of `random.uniform(-30, 30)` and
`random.uniform(-20, 20)` is supplied as tapes of rationals (one value
per point index). -/

structure TextLayoutManager where
  width : ℚ
  height : ℚ
  num_points : Nat

/-- Python `int()` applied to a rational: truncation toward zero. -/
def pyInt (q : ℚ) : ℤ :=
  if 0 ≤ q then Int.floor q else -Int.floor (-q)

def TextLayoutManager.center (m : TextLayoutManager) (is_chad : Bool) : ℚ × ℚ :=
  if is_chad then (m.width * (65 / 100), m.height * (1 / 2))
  else (m.width * (35 / 100), m.height * (1 / 2))

def TextLayoutManager.spread (m : TextLayoutManager) (is_chad : Bool) : ℚ × ℚ :=
  if is_chad then (m.width * (7 / 10), m.width * (95 / 100))
  else (m.width * (5 / 100), m.width * (1 / 10))

/-- `total_height = 400`; `vertical_step = 400/(n-1)` for `n > 1`, else 0. -/
def TextLayoutManager.vertical_step (m : TextLayoutManager) : ℚ :=
  if 1 < m.num_points then 400 / ((m.num_points : ℚ) - 1) else 0

/-- `base_y + i * vertical_step`: the y-coordinate of point `i` before
the random vertical jitter is added. -/
def TextLayoutManager.preJitterY (m : TextLayoutManager) (i : Nat) : ℚ :=
  ((m.center true).2 - 400 / 2) + (i : ℚ) * m.vertical_step

def TextLayoutManager.get_positions (m : TextLayoutManager) (is_chad : Bool)
    (xjit yjit : Nat → ℚ) : List (ℤ × ℤ) :=
  (List.range m.num_points).map (fun i =>
    let x := if is_chad then (m.spread is_chad).1 + xjit i
             else (m.spread is_chad).2 + xjit i
    let y := m.preJitterY i + yjit i
    (pyInt x, pyInt y))

/-! ### `WojakMemeGenerator.generate_meme`

Only the caption/label/position logic is embedded; template-image
loading, pasting, fonts and title drawing touch no data the claims
speak about.  `topic.split(" vs ")` is `pySplitVs`.  When the split
does not yield exactly two parts the Python code prints, builds the
pair `(topic, topic)` and returns the integer 0 instead of an image
(`MemeResult.aborted` records the pair).  If `generate_points` exits,
the process dies (`MemeResult.exited`).  Otherwise the result records
the two labels and, for each side, the formatted captions zipped with
that side's positions, exactly as the drawing loops pair them.  The
canvas is fixed at 1600x1000 and the layout manager is built with the
generator's `num_points`. -/

def vsSep : List Char := [' ', 'v', 's', ' ']

def pySplitVsF : Nat → List Char → List Char → List (List Char)
  | 0, s, acc => [acc.reverse ++ s]
  | fuel + 1, s, acc =>
    if vsSep.isPrefixOf s then acc.reverse :: pySplitVsF fuel (s.drop 4) []
    else
      match s with
      | [] => [acc.reverse]
      | c :: r => pySplitVsF fuel r (c :: acc)

/-- Python's `topic.split(" vs ")`. -/
def pySplitVs (cs : List Char) : List (List Char) :=
  pySplitVsF (cs.length + 1) cs []

inductive MemeResult where
  | aborted (topic_parts : String × String) : MemeResult
  | exited (code : Nat) : MemeResult
  | rendered (virgin chad : String)
      (virginDraws chadDraws : List (String × (ℤ × ℤ))) : MemeResult
deriving DecidableEq

def MemeResult.isRendered : MemeResult → Bool
  | .rendered _ _ _ _ => true
  | _ => false

def generate_meme (topic : String) (virgin_side : String) (g : ArgumentGenerator)
    (api : ApiResult) (num_points : Nat) (vxjit vyjit cxjit cyjit : Nat → ℚ) :
    MemeResult :=
  let topic_parts := (pySplitVs topic.data).map (fun l => String.mk l)
  if topic_parts.length ≠ 2 then
    -- print(...); topic_parts = (topic, topic); print(topic_parts); return 0
    .aborted (topic, topic)
  else
    let virgin := if virgin_side = "left" then topic_parts.getD 0 "" else topic_parts.getD 1 ""
    let chad := if virgin_side = "left" then topic_parts.getD 1 "" else topic_parts.getD 0 ""
    match g.generate_points api num_points with
    | .exitCode n => .exited n
    | .ok chad_points virgin_points =>
      let m : TextLayoutManager := ⟨1600, 1000, num_points⟩
      let virgin_positions := m.get_positions false vxjit vyjit
      let chad_positions := m.get_positions true cxjit cyjit
      .rendered virgin chad (virgin_points.zip virgin_positions)
        (chad_points.zip chad_positions)

/-! ### Auxiliary observation functions used by the theorems -/

/-- The maximal runs of non-whitespace characters, in order: the
"words" of a text (whitespace in the `str.isspace` sense; fuel-driven,
with `wordsOfD` supplying sufficient fuel). -/
def wordsOfDF : Nat → List Char → List (List Char)
  | 0, _ => []
  | fuel + 1, cs =>
    match cs with
    | [] => []
    | c :: rest =>
      if pyUniSpace c then wordsOfDF fuel rest
      else (c :: rest.takeWhile (fun x => !pyUniSpace x)) ::
        wordsOfDF fuel (rest.dropWhile (fun x => !pyUniSpace x))

def wordsOfD (cs : List Char) : List (List Char) :=
  wordsOfDF (cs.length + 1) cs

def wordsOf (s : String) : List String :=
  (wordsOfD s.data).map (fun l => String.mk l)

/-- The first line of a string (up to the first newline). -/
def firstLine (s : String) : String :=
  String.mk (s.data.takeWhile (fun c => c != '\n'))

def beginsWith (p s : String) : Bool :=
  p.data.isPrefixOf s.data

/-- Number of occurrences of a character in a string. -/
def cnt (c : Char) (s : String) : Nat :=
  s.data.count c

/-- Drop the first `n` characters of a string. -/
def dropChars (s : String) (n : Nat) : String :=
  String.mk (s.data.drop n)

/-! ## Helper lemmas -/

theorem pySplitVsF_of_not_infix (fuel : Nat) (s acc : List Char)
    (hfuel : s.length < fuel) (h : ¬ vsSep <:+: s) :
    pySplitVsF fuel s acc = [acc.reverse ++ s] := by
  induction fuel generalizing s acc with
  | zero => omega
  | succ n ih =>
    have hpre : vsSep.isPrefixOf s = false := by
      cases hp : vsSep.isPrefixOf s with
      | false => rfl
      | true =>
        exact absurd (List.isPrefixOf_iff_prefix.mp hp).isInfix h
    match s with
    | [] => simp [pySplitVsF, hpre]
    | c :: r =>
      have hr : ¬ vsSep <:+: r := fun hr => h (hr.trans (List.suffix_cons c r).isInfix)
      simp only [pySplitVsF, hpre, Bool.false_eq_true, if_false]
      rw [ih r (c :: acc) (by simp at hfuel ⊢; omega) hr]
      simp

theorem pySplitVs_of_not_infix (cs : List Char) (h : ¬ vsSep <:+: cs) :
    pySplitVs cs = [cs] := by
  rw [pySplitVs, pySplitVsF_of_not_infix _ _ _ (by omega) h]
  simp

/-! ## Claims -/

/-- Claim C1 (code bug): the claim says that on an item-count mismatch
the generator falls back to the deterministic template strategy and
still returns 5 captions per side.  The code instead raises
`ValueError`, which the surrounding `except Exception` turns into
`exit(1)`: evaluated on a parsed response with 4 virgin items and
5 chad items when 5 were requested, `generate_points` terminates the
process with exit status 1 and `_generate_themed_points` is never
called (it is dead code in this file). -/
theorem c1_count_mismatch_exits :
    (ArgumentGenerator.init (some "key")).generate_points
      (.parsed ["too", "few", "items", "here"] ["c1", "c2", "c3", "c4", "c5"]) 5
      = .exitCode 1 := by
  decide

/-- Claim C2 (code bug): the claim says that without an API key the
generator uses the deterministic strategy and returns `num_points`
captions per side.  The constructor indeed records `use_api = false`,
but `generate_points` never consults the flag: it unconditionally
accesses `self.client`, raising `AttributeError`, and the
`except Exception` handler calls `exit(1)` — for every API outcome and
every requested count. -/
theorem c2_no_api_key_exits :
    (ArgumentGenerator.init none).use_api = false ∧
    ∀ (api : ApiResult) (np : Nat),
      (ArgumentGenerator.init none).generate_points api np = .exitCode 1 := by
  exact ⟨rfl, fun api np => rfl⟩

/-- Claim C3, counterexample: on a topic without " vs " the code does
set both labels to the full input string, but rendering does not
proceed — `generate_meme` returns the integer sentinel 0 (here
`MemeResult.aborted`), not a rendered canvas. -/
theorem c3_counterexample :
    generate_meme "Bananas and Apples" "left" (ArgumentGenerator.init (some "key"))
        (.parsed ["v1", "v2", "v3", "v4", "v5"] ["c1", "c2", "c3", "c4", "c5"]) 5
        (fun _ => 0) (fun _ => 0) (fun _ => 0) (fun _ => 0)
      = .aborted ("Bananas and Apples", "Bananas and Apples") ∧
    (generate_meme "Bananas and Apples" "left" (ArgumentGenerator.init (some "key"))
        (.parsed ["v1", "v2", "v3", "v4", "v5"] ["c1", "c2", "c3", "c4", "c5"]) 5
        (fun _ => 0) (fun _ => 0) (fun _ => 0) (fun _ => 0)).isRendered = false := by
  constructor
  · rfl
  · rfl

/-- Claim C3 as amended: for every topic string that does not contain
the separator " vs ", both semantic labels are set to the full input
string, but `generate_meme` then returns the sentinel 0 (aborting the
render) rather than proceeding; no exception is raised. -/
theorem c3_amended_no_vs_aborts (topic virgin_side : String) (g : ArgumentGenerator)
    (api : ApiResult) (np : Nat) (j1 j2 j3 j4 : Nat → ℚ)
    (h : ¬ vsSep <:+: topic.data) :
    generate_meme topic virgin_side g api np j1 j2 j3 j4 = .aborted (topic, topic) := by
  rw [generate_meme, pySplitVs_of_not_infix _ h]
  simp

/-- Witness for the amended claim C3. -/
theorem c3_amended_witness :
    ¬ vsSep <:+: "Bananas and Apples".data ∧
    generate_meme "Bananas and Apples" "right" (ArgumentGenerator.init none)
        .badJson 5 (fun _ => 1) (fun _ => 2) (fun _ => 3) (fun _ => 4)
      = .aborted ("Bananas and Apples", "Bananas and Apples") :=
  ⟨by decide,
   c3_amended_no_vs_aborts "Bananas and Apples" "right" (ArgumentGenerator.init none)
     .badJson 5 (fun _ => 1) (fun _ => 2) (fun _ => 3) (fun _ => 4) (by decide)⟩

/-- Claim C4, counterexample: the code validates only the item count of
a parsed backend response, never the per-item character length.  A
45-character item (over the stated 40-character budget) is accepted and
formatted rather than rejected. -/
theorem c4_counterexample :
    (ArgumentGenerator.init (some "key")).generate_points
        (.parsed ["v1", "v2", "v3", "v4", "v5"]
          ["aaaaaaaaaaaaaaaaaaaaaaaaaaaaaaaaaaaaaaaaaaaaa", "c2", "c3", "c4", "c5"]) 5
      = .ok ["• aaaaaaaaaaaaaaaaaaaaaaaaaaaaaaaaaaaaaaaaaaaaa", "• c2", "• c3", "• c4", "• c5"]
            ["• v1", "• v2", "• v3", "• v4", "• v5"] ∧
    ("aaaaaaaaaaaaaaaaaaaaaaaaaaaaaaaaaaaaaaaaaaaaa" : String).length = 45 ∧
    ¬ ("aaaaaaaaaaaaaaaaaaaaaaaaaaaaaaaaaaaaaaaaaaaaa" : String).length < 40 := by
  refine ⟨by decide, by decide, by decide⟩

/-- Claim C4 as amended: before accepting a generative-backend
response, the caller validates only the item count; no per-item length
check exists, so items of any length are accepted and formatted.
Acceptance depends solely on both lists having exactly `num_points`
elements. -/
theorem c4_amended_count_only_validation (v c : List String) (np : Nat)
    (hv : v.length = np) (hc : c.length = np) :
    (ArgumentGenerator.init (some "key")).generate_points (.parsed v c) np
      = .ok (c.map _format_point) (v.map _format_point) := by
  have huse : (ArgumentGenerator.init (some "key")).use_api = true := by decide
  simp [ArgumentGenerator.generate_points, huse, hv, hc]

/-- Witness for the amended claim C4 (the second chad item has 45
characters and is still accepted). -/
theorem c4_amended_witness :
    (["v1", "v2", "v3", "v4", "v5"] : List String).length = 5 ∧
    (["c1", "aaaaaaaaaaaaaaaaaaaaaaaaaaaaaaaaaaaaaaaaaaaaa", "c3", "c4", "c5"] : List String).length = 5 ∧
    (ArgumentGenerator.init (some "key")).generate_points
        (.parsed ["v1", "v2", "v3", "v4", "v5"]
          ["c1", "aaaaaaaaaaaaaaaaaaaaaaaaaaaaaaaaaaaaaaaaaaaaa", "c3", "c4", "c5"]) 5
      = .ok ((["c1", "aaaaaaaaaaaaaaaaaaaaaaaaaaaaaaaaaaaaaaaaaaaaa", "c3", "c4", "c5"] : List String).map _format_point)
            ((["v1", "v2", "v3", "v4", "v5"] : List String).map _format_point) :=
  ⟨by decide, by decide,
   c4_amended_count_only_validation ["v1", "v2", "v3", "v4", "v5"]
     ["c1", "aaaaaaaaaaaaaaaaaaaaaaaaaaaaaaaaaaaaaaaaaaaaa", "c3", "c4", "c5"] 5
     (by decide) (by decide)⟩

/-- Claim C6, counterexample: for N = 1 on a 1600x1000 canvas the
single position's y-coordinate before jitter is `base_y = 500 - 200 =
300`, not the anchor's vertical center 500 (= 50% of the canvas
height): the layout starts from `center_y - total_height/2` even when
the vertical step collapses to 0. -/
theorem c6_counterexample :
    (TextLayoutManager.mk 1600 1000 1).get_positions true (fun _ => 0) (fun _ => 0)
      = [(1120, 300)] ∧
    (TextLayoutManager.mk 1600 1000 1).preJitterY 0 = 300 ∧
    ((TextLayoutManager.mk 1600 1000 1).center true).2 = 500 ∧
    (300 : ℚ) ≠ 500 := by
  refine ⟨?_, ?_, ?_, by norm_num⟩
  · simp only [TextLayoutManager.get_positions, TextLayoutManager.spread,
      TextLayoutManager.preJitterY, TextLayoutManager.center,
      TextLayoutManager.vertical_step, pyInt, List.range_succ, List.range_zero]
    norm_num
  · simp only [TextLayoutManager.preJitterY, TextLayoutManager.center,
      TextLayoutManager.vertical_step]
    norm_num
  · simp only [TextLayoutManager.center]
    norm_num

/-- Claim C6 as amended: in the degenerate N = 1 case the vertical step
collapses to 0 and the single position's pre-jitter y-coordinate equals
the side anchor's vertical center minus half the fixed 400 px text
window, i.e. `height/2 - 200` (300 on the 1000-pixel canvas), for both
sides and any jitter. -/
theorem c6_amended_pre_jitter_y (w h : ℚ) :
    (TextLayoutManager.mk w h 1).vertical_step = 0 ∧
    (TextLayoutManager.mk w h 1).preJitterY 0 = h * (1 / 2) - 200 ∧
    ∀ (is_chad : Bool) (xj yj : Nat → ℚ),
      ((TextLayoutManager.mk w h 1).get_positions is_chad xj yj).map Prod.snd
        = [pyInt (h * (1 / 2) - 200 + yj 0)] := by
  refine ⟨by simp [TextLayoutManager.vertical_step], ?_, ?_⟩
  · simp [TextLayoutManager.preJitterY, TextLayoutManager.center,
      TextLayoutManager.vertical_step]
    ring
  · intro is_chad xj yj
    simp [TextLayoutManager.get_positions, TextLayoutManager.preJitterY,
      TextLayoutManager.center, TextLayoutManager.vertical_step,
      show List.range 1 = [0] from rfl]
    norm_num

/-! ## Distinctness of the phrase templates -/

theorem cnt_append (ch : Char) (a b : String) : cnt ch (a ++ b) = cnt ch a + cnt ch b := by
  simp [cnt, String.data_append, List.count_append]

theorem ne_of_cnt_lt_app (t A C : String) (ch : Char) (h : cnt ch C < cnt ch A) :
    t ++ A ≠ C := by
  intro e
  have h2 := congrArg (cnt ch) e
  rw [cnt_append] at h2
  omega

theorem ne_of_cnt_lt_mid (t S G C : String) (ch : Char)
    (h : cnt ch C < cnt ch S + cnt ch G) : S ++ t ++ G ≠ C := by
  intro e
  have h2 := congrArg (cnt ch) e
  rw [cnt_append, cnt_append] at h2
  omega

theorem ne_app_of_len (t A B : String) (h : A.length ≠ B.length) : t ++ A ≠ t ++ B := by
  intro e
  have h2 := congrArg String.length e
  simp only [String.length_append] at h2
  omega

theorem ne_app_mid_cnt (t A S G : String) (ch : Char)
    (h : cnt ch A ≠ cnt ch S + cnt ch G) : t ++ A ≠ S ++ t ++ G := by
  intro e
  have h2 := congrArg (cnt ch) e
  rw [cnt_append, cnt_append, cnt_append] at h2
  omega

theorem ne_app_mid_len (t A S G : String) (h : A.length ≠ S.length + G.length) :
    t ++ A ≠ S ++ t ++ G := by
  intro e
  have h2 := congrArg String.length e
  simp only [String.length_append] at h2
  omega

theorem ne_pre_cnt (t P C : String) (ch : Char) (h : cnt ch C < cnt ch P) : P ++ t ≠ C := by
  intro e
  have h2 := congrArg (cnt ch) e
  rw [cnt_append] at h2
  omega

theorem ne_pre_premid_len (t P A Q : String) (h : P.length ≠ A.length + Q.length) :
    P ++ t ≠ A ++ t ++ Q := by
  intro e
  have h2 := congrArg String.length e
  simp only [String.length_append] at h2
  omega

theorem ne_pre_pre_len (t P P2 : String) (h : P.length ≠ P2.length) : P ++ t ≠ P2 ++ t := by
  intro e
  have h2 := congrArg String.length e
  simp only [String.length_append] at h2
  omega

theorem ne_premid_premid_len (t P Q P2 Q2 : String)
    (h : P.length + Q.length ≠ P2.length + Q2.length) : P ++ t ++ Q ≠ P2 ++ t ++ Q2 := by
  intro e
  have h2 := congrArg String.length e
  simp only [String.length_append] at h2
  omega

theorem ne_premid_pre_len (t P Q P2 : String) (h : P.length + Q.length ≠ P2.length) :
    P ++ t ++ Q ≠ P2 ++ t := by
  intro e
  have h2 := congrArg String.length e
  simp only [String.length_append] at h2
  omega

/-- The eight chad templates are pairwise distinct strings for every
topic. -/
theorem chad_templates_nodup (topic : String) : (chad_templates topic).Nodup := by
  simp only [chad_templates, List.nodup_cons, List.mem_cons, List.not_mem_nil,
    or_false, List.nodup_nil, and_true, not_false_eq_true]
  push_neg
  exact ⟨⟨ne_of_cnt_lt_app topic " feared by gods" "Makes chads stronger" ' ' (by decide),
      ne_app_of_len topic " feared by gods" " energy radiates" (by decide),
      ne_of_cnt_lt_app topic " feared by gods" "Never needs practice" ' ' (by decide),
      ne_of_cnt_lt_app topic " feared by gods" "Crushes competition" ' ' (by decide),
      ne_of_cnt_lt_app topic " feared by gods" "Has 300 IQ moves" 'e' (by decide),
      ne_of_cnt_lt_app topic " feared by gods" "Gigachad approves" ' ' (by decide),
      ne_app_mid_cnt topic " feared by gods" "Sigma " " grindset" 'f' (by decide)⟩,
    ⟨(ne_of_cnt_lt_app topic " energy radiates" "Makes chads stronger" 'e' (by decide)).symm,
      by decide, by decide, by decide, by decide,
      (ne_of_cnt_lt_mid topic "Sigma " " grindset" "Makes chads stronger" 'i' (by decide)).symm⟩,
    ⟨ne_of_cnt_lt_app topic " energy radiates" "Never needs practice" 'y' (by decide),
      ne_of_cnt_lt_app topic " energy radiates" "Crushes competition" 'y' (by decide),
      ne_of_cnt_lt_app topic " energy radiates" "Has 300 IQ moves" 'y' (by decide),
      ne_of_cnt_lt_app topic " energy radiates" "Gigachad approves" 'y' (by decide),
      ne_app_mid_len topic " energy radiates" "Sigma " " grindset" (by decide)⟩,
    ⟨by decide, by decide, by decide,
      (ne_of_cnt_lt_mid topic "Sigma " " grindset" "Never needs practice" 'g' (by decide)).symm⟩,
    ⟨by decide, by decide,
      (ne_of_cnt_lt_mid topic "Sigma " " grindset" "Crushes competition" 'g' (by decide)).symm⟩,
    ⟨by decide,
      (ne_of_cnt_lt_mid topic "Sigma " " grindset" "Has 300 IQ moves" 'g' (by decide)).symm⟩,
    (ne_of_cnt_lt_mid topic "Sigma " " grindset" "Gigachad approves" 'i' (by decide)).symm⟩

/-- The eight virgin templates are pairwise distinct strings for every
topic. -/
theorem virgin_templates_nodup (topic : String) : (virgin_templates topic).Nodup := by
  simp only [virgin_templates, List.nodup_cons, List.mem_cons, List.not_mem_nil,
    or_false, List.nodup_nil, and_true, not_false_eq_true]
  push_neg
  exact ⟨⟨ne_pre_premid_len topic "Mom still buys " "Scared of " " power" (by decide),
      ne_pre_premid_len topic "Mom still buys " "Needs " " manual" (by decide),
      ne_pre_cnt topic "Mom still buys " "Everyone mocks him" ' ' (by decide),
      ne_pre_cnt topic "Mom still buys " "Can\x27t handle basics" ' ' (by decide),
      ne_pre_pre_len topic "Mom still buys " "Cries at " (by decide),
      ne_pre_cnt topic "Mom still buys " "Zero skill level" ' ' (by decide),
      ne_pre_cnt topic "Mom still buys " "Still uses training mode" 'y' (by decide)⟩,
    ⟨ne_premid_premid_len topic "Scared of " " power" "Needs " " manual" (by decide),
      ne_of_cnt_lt_mid topic "Scared of " " power" "Everyone mocks him" ' ' (by decide),
      ne_of_cnt_lt_mid topic "Scared of " " power" "Can\x27t handle basics" ' ' (by decide),
      ne_premid_pre_len topic "Scared of " " power" "Cries at " (by decide),
      ne_of_cnt_lt_mid topic "Scared of " " power" "Zero skill level" ' ' (by decide),
      ne_of_cnt_lt_mid topic "Scared of " " power" "Still uses training mode" 'f' (by decide)⟩,
    ⟨ne_of_cnt_lt_mid topic "Needs " " manual" "Everyone mocks him" 'a' (by decide),
      ne_of_cnt_lt_mid topic "Needs " " manual" "Can\x27t handle basics" 'u' (by decide),
      ne_premid_pre_len topic "Needs " " manual" "Cries at " (by decide),
      ne_of_cnt_lt_mid topic "Needs " " manual" "Zero skill level" 'a' (by decide),
      ne_of_cnt_lt_mid topic "Needs " " manual" "Still uses training mode" 'a' (by decide)⟩,
    ⟨by decide,
      (ne_pre_cnt topic "Cries at " "Everyone mocks him" 'C' (by decide)).symm,
      by decide, by decide⟩,
    ⟨(ne_pre_cnt topic "Cries at " "Can\x27t handle basics" 'r' (by decide)).symm,
      by decide, by decide⟩,
    ⟨ne_pre_cnt topic "Cries at " "Zero skill level" 'C' (by decide),
      ne_pre_cnt topic "Cries at " "Still uses training mode" 'C' (by decide)⟩,
    by decide⟩

/-! ## Properties of the sampling model -/

theorem sampleAux_length {α : Type} (k : Nat) (l : List α) (tape : List Nat)
    (h : k ≤ l.length) : (sampleAux k l tape).length = k := by
  induction k generalizing l tape with
  | zero => rfl
  | succ n ih =>
    have hl : 0 < l.length := by omega
    have hi : tape.headD 0 % l.length < l.length := Nat.mod_lt _ hl
    simp only [sampleAux, List.getElem?_eq_getElem hi]
    have hlen : (l.eraseIdx (tape.headD 0 % l.length)).length = l.length - 1 :=
      List.length_eraseIdx_of_lt hi
    simp only [List.length_cons]
    rw [ih _ tape.tail (by omega)]

theorem sampleAux_subset {α : Type} (k : Nat) (l : List α) (tape : List Nat) :
    ∀ x ∈ sampleAux k l tape, x ∈ l := by
  induction k generalizing l tape with
  | zero => intro x hx; simp [sampleAux] at hx
  | succ n ih =>
    intro x hx
    simp only [sampleAux] at hx
    cases hg : (l[tape.headD 0 % l.length]?) with
    | none => rw [hg] at hx; simp at hx
    | some a =>
      rw [hg] at hx
      rcases List.mem_cons.mp hx with h | h
      · subst h
        exact List.getElem?_mem hg
      · exact List.mem_of_mem_eraseIdx (ih _ _ x h)

theorem sampleAux_nodup {α : Type} (k : Nat) (l : List α) (tape : List Nat)
    (h : l.Nodup) : (sampleAux k l tape).Nodup := by
  induction k generalizing l tape with
  | zero => exact List.nodup_nil
  | succ n ih =>
    simp only [sampleAux]
    cases hg : (l[tape.headD 0 % l.length]?) with
    | none => exact List.nodup_nil
    | some a =>
      rw [List.nodup_cons]
      refine ⟨?_, ih _ _ (h.eraseIdx _)⟩
      intro hmem
      have hmem2 := sampleAux_subset _ _ _ _ hmem
      rw [List.mem_eraseIdx_iff_getElem] at hmem2
      obtain ⟨j, hj, hji, hja⟩ := hmem2
      rcases List.getElem?_eq_some_iff.mp hg with ⟨hi, hia⟩
      exact hji ((h.getElem_inj_iff).mp (hja.trans hia.symm))

/-! ## The formatter always puts the bullet on the first line -/

theorem takeWhile_all {α : Type} (p : α → Bool) (l : List α) (h : ∀ c ∈ l, p c) :
    l.takeWhile p = l := by
  induction l with
  | nil => rfl
  | cons c cs ih =>
    rw [List.takeWhile_cons, if_pos (h c (List.mem_cons_self c cs))]
    rw [ih (fun x hx => h x (List.mem_cons_of_mem c hx))]

theorem splitNlAux_ne_nil (cs acc : List Char) : splitNlAux cs acc ≠ [] := by
  induction cs generalizing acc with
  | nil => simp [splitNlAux]
  | cons c rest ih =>
    rw [splitNlAux]
    split
    · simp
    · exact ih _

theorem splitNlAux_no_newline (cs acc : List Char) (hacc : ∀ c ∈ acc, c ≠ '\n') :
    ∀ l ∈ splitNlAux cs acc, ∀ c ∈ l, c ≠ '\n' := by
  induction cs generalizing acc with
  | nil =>
    intro l hl c hc
    rw [splitNlAux] at hl
    rcases List.mem_singleton.mp hl with rfl
    exact hacc c (List.mem_reverse.mp hc)
  | cons d rest ih =>
    intro l hl c hc
    rw [splitNlAux] at hl
    by_cases hd : d = '\n'
    · rw [if_pos hd] at hl
      rcases List.mem_cons.mp hl with rfl | hl2
      · exact hacc c (List.mem_reverse.mp hc)
      · exact ih [] (by simp) l hl2 c hc
    · rw [if_neg hd] at hl
      refine ih (d :: acc) ?_ l hl c hc
      intro x hx
      rcases List.mem_cons.mp hx with rfl | hx2
      · exact hd
      · exact hacc x hx2

theorem pySplitNl_ne_nil (s : String) : pySplitNl s ≠ [] := by
  simp only [pySplitNl]
  intro h
  exact splitNlAux_ne_nil s.data [] (List.map_eq_nil_iff.mp h)

theorem pySplitNl_no_newline (s : String) :
    ∀ l ∈ pySplitNl s, ∀ c ∈ l.data, c ≠ '\n' := by
  intro l hl c hc
  simp only [pySplitNl, List.mem_map] at hl
  obtain ⟨d, hd, rfl⟩ := hl
  exact splitNlAux_no_newline s.data [] (by simp) d hd c hc

theorem firstLine_joinNL (x : String) (xs : List String)
    (hx : ∀ c ∈ x.data, c ≠ '\n') : firstLine (joinNL (x :: xs)) = x := by
  have hp : ∀ c ∈ x.data, (c != '\n') = true := by
    intro c hc
    simpa using hx c hc
  cases xs with
  | nil =>
    show String.mk ((joinNLData [x.data]).takeWhile _) = x
    rw [show joinNLData [x.data] = x.data from rfl, takeWhile_all _ _ hp]
  | cons y ys =>
    show String.mk ((joinNLData (x.data :: (y :: ys).map String.data)).takeWhile _) = x
    rw [show joinNLData (x.data :: (y :: ys).map String.data)
        = x.data ++ '\n' :: joinNLData ((y :: ys).map String.data) from by
      simp [joinNLData]]
    rw [List.takeWhile_append_of_pos hp]
    simp [List.takeWhile_cons]

theorem beginsWith_append (p s : String) : beginsWith p (p ++ s) = true := by
  simp only [beginsWith, String.data_append, List.isPrefixOf_iff_prefix]
  exact List.prefix_append p.data s.data

theorem format_point_bullet (s : String) :
    beginsWith "• " (firstLine (_format_point s)) = true := by
  rcases h : pySplitNl (match _wrap_text (pyStrip (pyLstripBullets s)) 25 with
    | .ok w => w | .error _ => "") with _ | ⟨l0, rest⟩
  · exact absurd h (pySplitNl_ne_nil _)
  · have hshape : _format_point s
        = joinNL (("• " ++ l0) :: rest.map (fun l => "  " ++ l)) := by
      simp only [_format_point]
      rw [h]
    rw [hshape, firstLine_joinNL _ _ ?hnl]
    · exact beginsWith_append "• " l0
    case hnl =>
      intro c hc
      rw [String.data_append] at hc
      rcases List.mem_append.mp hc with hc2 | hc2
      · have hcc : c = '•' ∨ c = ' ' := by simpa using hc2
        rcases hcc with rfl | rfl <;> decide
      · exact pySplitNl_no_newline _ l0 (h ▸ List.mem_cons_self l0 rest) c hc2

/-- Claim C5, counterexample: for N = 9 (which is ≥ 1) the deterministic
Caption Source does not return 9 captions: both template lists have
exactly 8 entries, and `random.sample` raises
`ValueError("Sample larger than population or is negative")`. -/
theorem c5_counterexample :
    (chad_templates "X").length = 8 ∧ (virgin_templates "X").length = 8 ∧
    _generate_themed_points "X" true 9 []
      = .error "Sample larger than population or is negative" ∧
    _generate_themed_points "X" false 9 []
      = .error "Sample larger than population or is negative" := by
  refine ⟨by decide, by decide, by rfl, by rfl⟩

/-- Claim C5 as amended: for every 1 ≤ N ≤ 8 (8 being the size of the
fixed template lists) and every topic string, the deterministic Caption
Source samples N templates at pairwise-distinct positions, the sampled
phrases are pairwise-distinct strings, exactly N formatted captions are
returned (the sampled phrases in order, each through `_format_point`),
and every returned caption's first line starts with the bullet
prefix "• ".  For N > 8, `random.sample` raises `ValueError` instead. -/
theorem c5_amended_themed_points (topic : String) (is_chad : Bool) (np : Nat)
    (tape : List Nat) (h1 : 1 ≤ np) (h8 : np ≤ 8) :
    ∃ sel : List String,
      random_sample (if is_chad then chad_templates topic else virgin_templates topic)
          np tape = .ok sel ∧
      _generate_themed_points topic is_chad np tape = .ok (sel.map _format_point) ∧
      sel.length = np ∧ sel.Nodup ∧
      (sel.map _format_point).length = np ∧
      ∀ s ∈ sel.map _format_point, beginsWith "• " (firstLine s) = true := by
  have hlen : (if is_chad then chad_templates topic else virgin_templates topic).length = 8 := by
    cases is_chad <;> simp [chad_templates, virgin_templates]
  have hnodup : (if is_chad then chad_templates topic else virgin_templates topic).Nodup := by
    cases is_chad
    · simpa using virgin_templates_nodup topic
    · simpa using chad_templates_nodup topic
  refine ⟨sampleAux np (if is_chad then chad_templates topic else virgin_templates topic) tape,
    ?_, ?_, ?_, ?_, ?_, ?_⟩
  · rw [random_sample, if_neg (by omega)]
  · rw [_generate_themed_points, random_sample, if_neg (by omega)]
    rfl
  · exact sampleAux_length _ _ _ (by omega)
  · exact sampleAux_nodup _ _ _ hnodup
  · rw [List.length_map]
    exact sampleAux_length _ _ _ (by omega)
  · intro s hs
    rcases List.mem_map.mp hs with ⟨x, _, rfl⟩
    exact format_point_bullet x

/-- Witness for the amended claim C5. -/
theorem c5_amended_witness :
    1 ≤ 3 ∧ 3 ≤ 8 ∧
    ∃ sel : List String,
      random_sample (if true then chad_templates "Bananas" else virgin_templates "Bananas")
          3 [5, 0, 1] = .ok sel ∧
      _generate_themed_points "Bananas" true 3 [5, 0, 1] = .ok (sel.map _format_point) ∧
      sel.length = 3 ∧ sel.Nodup ∧
      (sel.map _format_point).length = 3 ∧
      ∀ s ∈ sel.map _format_point, beginsWith "• " (firstLine s) = true :=
  ⟨by decide, by decide,
   c5_amended_themed_points "Bananas" true 3 [5, 0, 1] (by decide) (by decide)⟩

/-! ## Layout bounds -/

theorem pyInt_eq_floor (q : ℚ) (h : 0 ≤ q) : pyInt q = Int.floor q := by
  rw [pyInt, if_pos h]

theorem le_pyInt (a : ℤ) (q : ℚ) (h0 : 0 ≤ q) (ha : (a : ℚ) ≤ q) : a ≤ pyInt q := by
  rw [pyInt_eq_floor q h0]
  exact Int.le_floor.mpr ha

theorem pyInt_le (q : ℚ) (b : ℤ) (h0 : 0 ≤ q) (hb : q ≤ (b : ℚ)) : pyInt q ≤ b := by
  rw [pyInt_eq_floor q h0]
  calc Int.floor q ≤ Int.floor (b : ℚ) := Int.floor_le_floor hb
    _ = b := Int.floor_intCast b

/-- Claim C8: for every N ≥ 1 (and in fact any canvas and any jitter)
`get_positions` returns exactly N integer positions; on the 1600x1000
canvas with N = 5 the chad spread interval is [1120, 1520] and, for
horizontal jitter bounded by ±30, every chad-side x-coordinate lies in
[1120 - 30, 1520 + 30]; the y-coordinates before the random jitter term
(`base_y + i * vertical_step`) are monotonically non-decreasing in the
point index. -/
theorem c8_layout_positions (N : Nat) (hN : 1 ≤ N) (w h : ℚ) (is_chad : Bool)
    (xj yj xj5 yj5 : Nat → ℚ) (hx : ∀ i, -30 ≤ xj5 i ∧ xj5 i ≤ 30) :
    ((TextLayoutManager.mk w h N).get_positions is_chad xj yj).length = N ∧
    (TextLayoutManager.mk 1600 1000 5).spread true = (1120, 1520) ∧
    (∀ p ∈ (TextLayoutManager.mk 1600 1000 5).get_positions true xj5 yj5,
      1120 - 30 ≤ p.1 ∧ p.1 ≤ 1520 + 30) ∧
    (∀ i j : Nat, i ≤ j →
      (TextLayoutManager.mk 1600 1000 5).preJitterY i
        ≤ (TextLayoutManager.mk 1600 1000 5).preJitterY j) := by
  have hspread : (TextLayoutManager.mk 1600 1000 5).spread true = (1120, 1520) := by
    simp only [TextLayoutManager.spread, if_pos]
    norm_num
  refine ⟨?_, hspread, ?_, ?_⟩
  · simp [TextLayoutManager.get_positions]
  · intro p hp
    simp only [TextLayoutManager.get_positions, List.mem_map, List.mem_range] at hp
    obtain ⟨i, _, rfl⟩ := hp
    rw [hspread]
    simp only [if_pos]
    obtain ⟨hlo, hhi⟩ := hx i
    have h0 : (0 : ℚ) ≤ 1120 + xj5 i := by linarith
    constructor
    · exact le_pyInt _ _ h0 (by push_cast; linarith)
    · exact pyInt_le _ _ h0 (by push_cast; linarith)
  · intro i j hij
    simp only [TextLayoutManager.preJitterY, TextLayoutManager.center,
      TextLayoutManager.vertical_step]
    norm_num
    have hcast : (i : ℚ) ≤ (j : ℚ) := by exact_mod_cast hij
    nlinarith

/-- Witness for claim C8. -/
theorem c8_layout_positions_witness :
    1 ≤ 5 ∧ (∀ i : Nat, -30 ≤ (0 : ℚ) ∧ (0 : ℚ) ≤ 30) ∧
    (((TextLayoutManager.mk 1600 1000 5).get_positions true (fun _ => 0) (fun _ => 0)).length = 5 ∧
    (TextLayoutManager.mk 1600 1000 5).spread true = (1120, 1520) ∧
    (∀ p ∈ (TextLayoutManager.mk 1600 1000 5).get_positions true (fun _ => 0) (fun _ => 0),
      1120 - 30 ≤ p.1 ∧ p.1 ≤ 1520 + 30) ∧
    (∀ i j : Nat, i ≤ j →
      (TextLayoutManager.mk 1600 1000 5).preJitterY i
        ≤ (TextLayoutManager.mk 1600 1000 5).preJitterY j)) :=
  ⟨by decide, fun i => ⟨by decide, by decide⟩,
   c8_layout_positions 5 (by decide) 1600 1000 true (fun _ => 0) (fun _ => 0)
     (fun _ => 0) (fun _ => 0) (by intro i; simp)⟩

/-- Claim C10: on the successful path `generate_points` returns the
pair (formatted chad captions, formatted virgin captions) — the reverse
of the JSON response's key order, whose `virgin_points` list comes
first (first constructor argument of `ApiResult.parsed`) — and
`generate_meme` unpacks the pair in exactly that order: the first
component is drawn at the chad-side positions and the second at the
virgin-side positions. -/
theorem c10_ordering (topic virgin_side : String) (v c : List String) (np : Nat)
    (vxj vyj cxj cyj : Nat → ℚ) (hv : v.length = np) (hc : c.length = np)
    (hsplit : ((pySplitVs topic.data).map (fun l => String.mk l)).length = 2) :
    (ArgumentGenerator.init (some "key")).generate_points (.parsed v c) np
      = .ok (c.map _format_point) (v.map _format_point) ∧
    generate_meme topic virgin_side (ArgumentGenerator.init (some "key"))
        (.parsed v c) np vxj vyj cxj cyj
      = .rendered
          (if virgin_side = "left"
           then ((pySplitVs topic.data).map (fun l => String.mk l)).getD 0 ""
           else ((pySplitVs topic.data).map (fun l => String.mk l)).getD 1 "")
          (if virgin_side = "left"
           then ((pySplitVs topic.data).map (fun l => String.mk l)).getD 1 ""
           else ((pySplitVs topic.data).map (fun l => String.mk l)).getD 0 "")
          ((v.map _format_point).zip
            ((TextLayoutManager.mk 1600 1000 np).get_positions false vxj vyj))
          ((c.map _format_point).zip
            ((TextLayoutManager.mk 1600 1000 np).get_positions true cxj cyj)) := by
  have huse : (ArgumentGenerator.init (some "key")).use_api = true := by decide
  have hgp : (ArgumentGenerator.init (some "key")).generate_points (.parsed v c) np
      = .ok (c.map _format_point) (v.map _format_point) := by
    simp [ArgumentGenerator.generate_points, huse, hv, hc]
  refine ⟨hgp, ?_⟩
  rw [generate_meme, if_neg (by omega), hgp]

/-- Witness for claim C10. -/
theorem c10_ordering_witness :
    (["v1"] : List String).length = 1 ∧ (["c1"] : List String).length = 1 ∧
    ((pySplitVs "A vs B".data).map (fun l => String.mk l)).length = 2 ∧
    ((ArgumentGenerator.init (some "key")).generate_points (.parsed ["v1"] ["c1"]) 1
      = .ok (["c1"].map _format_point) (["v1"].map _format_point) ∧
    generate_meme "A vs B" "left" (ArgumentGenerator.init (some "key"))
        (.parsed ["v1"] ["c1"]) 1 (fun _ => 0) (fun _ => 0) (fun _ => 0) (fun _ => 0)
      = .rendered
          (if "left" = "left"
           then ((pySplitVs "A vs B".data).map (fun l => String.mk l)).getD 0 ""
           else ((pySplitVs "A vs B".data).map (fun l => String.mk l)).getD 1 "")
          (if "left" = "left"
           then ((pySplitVs "A vs B".data).map (fun l => String.mk l)).getD 1 ""
           else ((pySplitVs "A vs B".data).map (fun l => String.mk l)).getD 0 "")
          ((["v1"].map _format_point).zip
            ((TextLayoutManager.mk 1600 1000 1).get_positions false (fun _ => 0) (fun _ => 0)))
          ((["c1"].map _format_point).zip
            ((TextLayoutManager.mk 1600 1000 1).get_positions true (fun _ => 0) (fun _ => 0)))) :=
  ⟨by decide, by decide, by decide,
   c10_ordering "A vs B" "left" ["v1"] ["c1"] 1
     (fun _ => 0) (fun _ => 0) (fun _ => 0) (fun _ => 0)
     (by decide) (by decide) (by decide)⟩

/-! ## Splitting on newlines and joining with newlines are inverse -/

theorem joinNLData_cons (x : List Char) (ys : List (List Char)) (h : ys ≠ []) :
    joinNLData (x :: ys) = x ++ '\n' :: joinNLData ys := by
  cases ys with
  | nil => exact absurd rfl h
  | cons y ys2 => rfl

theorem joinNLData_splitNlAux (cs acc : List Char) :
    joinNLData (splitNlAux cs acc) = acc.reverse ++ cs := by
  induction cs generalizing acc with
  | nil => simp [splitNlAux, joinNLData]
  | cons c rest ih =>
    rw [splitNlAux]
    by_cases hc : c = '\n'
    · rw [if_pos hc, joinNLData_cons _ _ (splitNlAux_ne_nil rest []), ih []]
      simp [hc]
    · rw [if_neg hc, ih (c :: acc)]
      simp

theorem joinNL_pySplitNl (s : String) : joinNL (pySplitNl s) = s := by
  cases s with
  | mk d =>
    simp only [joinNL, pySplitNl, List.map_map]
    rw [show (String.data ∘ fun l => String.mk l) = id from rfl, List.map_id]
    rw [joinNLData_splitNlAux]
    simp

theorem splitNlAux_append (x cs acc : List Char) (hx : ∀ c ∈ x, c ≠ '\n') :
    splitNlAux (x ++ cs) acc = splitNlAux cs (x.reverse ++ acc) := by
  induction x generalizing acc with
  | nil => simp
  | cons c x2 ih =>
    have hc : c ≠ '\n' := hx c (List.mem_cons_self c x2)
    rw [List.cons_append, splitNlAux, if_neg hc,
      ih _ (fun d hd => hx d (List.mem_cons_of_mem c hd))]
    simp

theorem splitNlAux_joinNLData (xs : List (List Char)) (hne : xs ≠ [])
    (h : ∀ l ∈ xs, ∀ c ∈ l, c ≠ '\n') : splitNlAux (joinNLData xs) [] = xs := by
  induction xs with
  | nil => exact absurd rfl hne
  | cons x ys ih =>
    cases ys with
    | nil =>
      calc splitNlAux (joinNLData [x]) [] = splitNlAux (x ++ []) [] := by
            rw [List.append_nil]; rfl
        _ = splitNlAux [] (x.reverse ++ []) :=
            splitNlAux_append x [] [] (h x (List.mem_cons_self x []))
        _ = [x] := by simp [splitNlAux]
    | cons y ys2 =>
      rw [joinNLData_cons x (y :: ys2) (by simp),
        splitNlAux_append x _ [] (h x (List.mem_cons_self x _))]
      rw [show splitNlAux ('\n' :: joinNLData (y :: ys2)) (x.reverse ++ [])
          = (x.reverse ++ []).reverse :: splitNlAux (joinNLData (y :: ys2)) [] from by
        rw [splitNlAux]; simp]
      rw [ih (by simp) (fun l hl => h l (List.mem_cons_of_mem x hl))]
      simp

theorem pySplitNl_joinNL (xs : List String) (hne : xs ≠ [])
    (h : ∀ l ∈ xs, ∀ c ∈ l.data, c ≠ '\n') : pySplitNl (joinNL xs) = xs := by
  simp only [pySplitNl, joinNL]
  rw [splitNlAux_joinNLData (xs.map String.data) (by simpa using hne) ?hnl]
  · simp only [List.map_map]
    rw [show ((fun l => String.mk l) ∘ String.data) = id from by
      funext s; cases s; rfl, List.map_id]
  case hnl =>
    intro l hl c hc
    rcases List.mem_map.mp hl with ⟨s, hs, rfl⟩
    exact h s hs c hc

theorem dropChars_append (p s : String) : dropChars (p ++ s) p.length = s := by
  cases s with
  | mk d =>
    simp only [dropChars, String.data_append]
    rw [show p.length = p.data.length from rfl, List.drop_left]

/-- Claim C9: round-trip.  For every caption string, wrapping happens on
the bullet-stripped input (`point.lstrip("- *•").strip()`), and
removing the leading two-character bullet prefix from the first line of
`_format_point`'s output and the two-space indentation from each
continuation line yields exactly (not merely up to whitespace
normalization) the wrapped-but-unformatted text `_wrap_text` produces
on that stripped input. -/
theorem c9_round_trip (point : String) :
    ∃ w : String,
      _wrap_text (pyStrip (pyLstripBullets point)) 25 = .ok w ∧
      joinNL (dropChars ((pySplitNl (_format_point point)).headD "") 2
        :: (pySplitNl (_format_point point)).tail.map (fun l => dropChars l 2)) = w := by
  have hwrap : _wrap_text (pyStrip (pyLstripBullets point)) 25
      = .ok (joinNL ((wrapChunks 25 (splitChunks (munge (pyStrip (pyLstripBullets point)).data))).map
          (fun l => String.mk l))) := by
    rw [_wrap_text, pyWrap, if_neg (by omega)]
    rfl
  refine ⟨_, hwrap, ?_⟩
  rcases hsp : pySplitNl (joinNL ((wrapChunks 25 (splitChunks (munge (pyStrip (pyLstripBullets point)).data))).map
      (fun l => String.mk l))) with _ | ⟨l0, rest⟩
  · exact absurd hsp (pySplitNl_ne_nil _)
  have hfp : _format_point point
      = joinNL (("• " ++ l0) :: rest.map (fun l => "  " ++ l)) := by
    simp only [_format_point, hwrap, hsp]
  have hl0nl : ∀ c ∈ l0.data, c ≠ '\n' :=
    pySplitNl_no_newline _ l0 (hsp ▸ List.mem_cons_self l0 rest)
  have hrestnl : ∀ l ∈ rest, ∀ c ∈ l.data, c ≠ '\n' := fun l hl =>
    pySplitNl_no_newline _ l (hsp ▸ List.mem_cons_of_mem l0 hl)
  have hsplit2 : pySplitNl (_format_point point)
      = ("• " ++ l0) :: rest.map (fun l => "  " ++ l) := by
    rw [hfp]
    refine pySplitNl_joinNL _ (by simp) ?_
    intro l hl c hc
    rcases List.mem_cons.mp hl with rfl | hl2
    · rw [String.data_append] at hc
      rcases List.mem_append.mp hc with hc2 | hc2
      · have hcc : c = '•' ∨ c = ' ' := by simpa using hc2
        rcases hcc with rfl | rfl <;> decide
      · exact hl0nl c hc2
    · rcases List.mem_map.mp hl2 with ⟨l2, hl3, rfl⟩
      rw [String.data_append] at hc
      rcases List.mem_append.mp hc with hc2 | hc2
      · have hcc : c = ' ' := by simpa using hc2
        subst hcc; decide
      · exact hrestnl l2 hl3 c hc2
  rw [hsplit2]
  simp only [List.headD_cons, List.tail_cons, List.map_map]
  rw [show dropChars ("• " ++ l0) 2 = l0 from dropChars_append "• " l0]
  rw [show ((fun l => dropChars l 2) ∘ fun l => "  " ++ l) = id from by
    funext l; exact dropChars_append "  " l, List.map_id]
  rw [← hsp, joinNL_pySplitNl]

/-! ## Words of a character list: unfolding equations and splitting -/

theorem wordsOfDF_congr : ∀ (n m : Nat) (cs : List Char), cs.length < n → cs.length < m →
    wordsOfDF n cs = wordsOfDF m cs := by
  intro n
  induction n with
  | zero => intro m cs h; omega
  | succ n2 ih =>
    intro m cs hn hm
    cases m with
    | zero => omega
    | succ m2 =>
      cases cs with
      | nil => rfl
      | cons c rest =>
        simp only [wordsOfDF]
        by_cases hc : pyUniSpace c = true
        · rw [if_pos hc, if_pos hc]
          exact ih m2 rest (by simp at hn; omega) (by simp at hm; omega)
        · rw [if_neg hc, if_neg hc]
          have hd := (List.dropWhile_suffix (l := rest) (fun x => !pyUniSpace x)).length_le
          rw [ih m2 (rest.dropWhile (fun x => !pyUniSpace x))
            (by simp at hn; omega) (by simp at hm; omega)]

theorem wordsOfDF_eq_wordsOfD (fuel : Nat) (cs : List Char) (h : cs.length < fuel) :
    wordsOfDF fuel cs = wordsOfD cs :=
  wordsOfDF_congr fuel (cs.length + 1) cs h (by omega)

theorem wordsOfD_cons_eq (c : Char) (cs : List Char) :
    wordsOfD (c :: cs)
      = if pyUniSpace c = true then wordsOfDF (cs.length + 1) cs
        else (c :: cs.takeWhile (fun x => !pyUniSpace x)) ::
          wordsOfDF (cs.length + 1) (cs.dropWhile (fun x => !pyUniSpace x)) := rfl

theorem wordsOfD_cons_space (c : Char) (cs : List Char) (h : pyUniSpace c = true) :
    wordsOfD (c :: cs) = wordsOfD cs := by
  rw [wordsOfD_cons_eq, if_pos h]
  rfl

theorem wordsOfD_cons_word (c : Char) (cs : List Char) (h : pyUniSpace c = false) :
    wordsOfD (c :: cs) = (c :: cs.takeWhile (fun x => !pyUniSpace x)) ::
      wordsOfD (cs.dropWhile (fun x => !pyUniSpace x)) := by
  rw [wordsOfD_cons_eq, if_neg (by simp [h])]
  have hd := (List.dropWhile_suffix (l := cs) (fun x => !pyUniSpace x)).length_le
  rw [wordsOfDF_eq_wordsOfD _ _ (by omega)]

theorem wordsOfD_all_space (cs : List Char) (h : ∀ c ∈ cs, pyUniSpace c = true) :
    wordsOfD cs = [] := by
  induction cs with
  | nil => rfl
  | cons c rest ih =>
    rw [wordsOfD_cons_space c rest (h c (List.mem_cons_self c rest))]
    exact ih (fun x hx => h x (List.mem_cons_of_mem c hx))

theorem wordsOfD_space_app (a b : List Char) (h : ∀ c ∈ a, pyUniSpace c = true) :
    wordsOfD (a ++ b) = wordsOfD b := by
  induction a with
  | nil => rfl
  | cons c rest ih =>
    rw [List.cons_append, wordsOfD_cons_space c _ (h c (List.mem_cons_self c rest))]
    exact ih (fun x hx => h x (List.mem_cons_of_mem c hx))

theorem wordsOfD_all_word (cs : List Char) (hne : cs ≠ [])
    (h : ∀ c ∈ cs, pyUniSpace c = false) : wordsOfD cs = [cs] := by
  cases cs with
  | nil => exact absurd rfl hne
  | cons c rest =>
    rw [wordsOfD_cons_word c rest (h c (List.mem_cons_self c rest))]
    rw [takeWhile_all _ _ (fun x hx => by
      simp [h x (List.mem_cons_of_mem c hx)])]
    rw [List.dropWhile_eq_nil_iff.mpr (fun x hx => by
      simp [h x (List.mem_cons_of_mem c hx)])]
    rfl

/-- Splitting the word list of a concatenation at a clean boundary: if
the right part is empty or starts with whitespace, the words of the
concatenation are the words of the parts. -/
theorem wordsOfD_append (a b : List Char)
    (hb : b = [] ∨ ∃ d bs, b = d :: bs ∧ pyUniSpace d = true) :
    wordsOfD (a ++ b) = wordsOfD a ++ wordsOfD b := by
  suffices H : ∀ (n : Nat) (a : List Char), a.length ≤ n →
      wordsOfD (a ++ b) = wordsOfD a ++ wordsOfD b from H a.length a le_rfl
  intro n
  induction n with
  | zero =>
    intro a ha
    have hnil : a = [] := List.eq_nil_of_length_eq_zero (by omega)
    subst hnil
    rfl
  | succ n2 ih =>
    intro a ha
    cases a with
    | nil => rfl
    | cons c r =>
      by_cases hc : pyUniSpace c = true
      · rw [List.cons_append, wordsOfD_cons_space c _ hc, wordsOfD_cons_space c _ hc]
        exact ih r (by simp at ha; omega)
      · rw [List.cons_append, wordsOfD_cons_word c _ (by simpa using hc),
          wordsOfD_cons_word c _ (by simpa using hc)]
        by_cases hr : r.dropWhile (fun x => !pyUniSpace x) = []
        · have hall : ∀ x ∈ r, pyUniSpace x = false := fun x hx => by
            have := List.dropWhile_eq_nil_iff.mp hr x hx
            simpa using this
          have htk : r.takeWhile (fun x => !pyUniSpace x) = r :=
            takeWhile_all _ _ (fun x hx => by simp [hall x hx])
          rw [List.takeWhile_append_of_pos (fun x hx => by simp [hall x hx]),
            List.dropWhile_append_of_pos (fun x hx => by simp [hall x hx]), htk, hr]
          have htkb : b.takeWhile (fun x => !pyUniSpace x) = [] := by
            rcases hb with rfl | ⟨d, bs, rfl, hd⟩
            · rfl
            · rw [List.takeWhile_cons_of_neg (by simp [hd])]
          have hdrb : b.dropWhile (fun x => !pyUniSpace x) = b := by
            rcases hb with rfl | ⟨d, bs, rfl, hd⟩
            · rfl
            · rw [List.dropWhile_cons_of_neg (by simp [hd])]
          rw [htkb, hdrb, List.append_nil]
          rfl
        · have hne : ¬ (r.takeWhile (fun x => !pyUniSpace x)).length = r.length := by
            intro hl
            have heq : r.takeWhile (fun x => !pyUniSpace x) = r :=
              (List.takeWhile_prefix _).eq_of_length hl
            refine hr ?_
            rw [List.dropWhile_eq_nil_iff]
            intro x hx
            rw [← heq] at hx
            simpa using List.mem_takeWhile_imp hx
          rw [List.takeWhile_append, if_neg hne]
          rw [List.dropWhile_append, if_neg (by
            simp only [List.isEmpty_iff]
            exact hr)]
          have hlen := (List.dropWhile_suffix (l := r) (fun x => !pyUniSpace x)).length_le
          rw [ih (r.dropWhile (fun x => !pyUniSpace x)) (by simp at ha; omega)]
          simp

/-- The words of a newline-joined list of lines are the concatenation
of the words of the lines. -/
theorem wordsOfD_joinNLData (ls : List (List Char)) :
    wordsOfD (joinNLData ls) = (ls.map wordsOfD).flatten := by
  induction ls with
  | nil => rfl
  | cons x ys ih =>
    cases ys with
    | nil => simp [joinNLData]
    | cons y ys2 =>
      rw [joinNLData_cons x (y :: ys2) (by simp)]
      rw [wordsOfD_append x _ (Or.inr ⟨'\n', _, rfl, by decide⟩)]
      rw [wordsOfD_cons_space '\n' _ (by decide), ih]
      simp

/-! ## Properties of the chunker -/

theorem space6_to_uni (c : Char) (h : pySpace6 c = true) : pyUniSpace c = true := by
  simp only [pySpace6, Bool.or_eq_true, beq_iff_eq] at h
  have h2 : c = ' ' ∨ c = '\t' ∨ c = '\n' ∨ c = '\x0b' ∨ c = '\x0c' ∨ c = '\r' := by
    tauto
  obtain rfl | rfl | rfl | rfl | rfl | rfl := h2 <;> decide

theorem laEmDash_head (c : Char) (rs : List Char) (h : laEmDash (c :: rs) = true) :
    c = '-' := by
  cases rs with
  | nil => simp [laEmDash] at h
  | cons b rs2 =>
    simp only [laEmDash, Bool.and_eq_true, beq_iff_eq] at h
    exact h.1.1

theorem wordLoop_tiles : ∀ (rest hist cur : List Char),
    (wordLoop hist cur rest).1 ++ (wordLoop hist cur rest).2 = cur.reverse ++ rest := by
  intro rest
  induction rest with
  | nil => intro hist cur; simp [wordLoop]
  | cons c rs ih =>
    intro hist cur
    simp only [wordLoop]
    split_ifs with h1 h2 h3
    · have hc : c = '-' := by
        simp only [Bool.and_eq_true, beq_iff_eq] at h1
        exact h1.1.1
      subst hc
      simp
    · simp
    · simp
    · rw [ih (c :: hist) (c :: cur)]
      simp

theorem wordLoop_chunk : ∀ (rest hist cur : List Char), cur ≠ [] →
    (∀ x ∈ cur, pySpace6 x = false) →
    (wordLoop hist cur rest).1 ≠ [] ∧
      ∀ x ∈ (wordLoop hist cur rest).1, pySpace6 x = false := by
  intro rest
  induction rest with
  | nil =>
    intro hist cur hne hall
    simp only [wordLoop]
    refine ⟨by simpa using hne, ?_⟩
    intro x hx
    exact hall x (List.mem_reverse.mp hx)
  | cons c rs ih =>
    intro hist cur hne hall
    simp only [wordLoop]
    split_ifs with h1 h2 h3
    · refine ⟨by simp, ?_⟩
      intro x hx
      rcases List.mem_cons.mp (List.mem_reverse.mp hx) with rfl | hx2
      · decide
      · exact hall x hx2
    · exact ⟨by simpa using hne, fun x hx => hall x (List.mem_reverse.mp hx)⟩
    · exact ⟨by simpa using hne, fun x hx => hall x (List.mem_reverse.mp hx)⟩
    · refine ih (c :: hist) (c :: cur) (by simp) ?_
      intro x hx
      rcases List.mem_cons.mp hx with rfl | hx2
      · simpa using h2
      · exact hall x hx2

theorem wordLoop_rest_suffix : ∀ (rest hist cur : List Char),
    (wordLoop hist cur rest).2 <:+ rest := by
  intro rest
  induction rest with
  | nil => intro hist cur; simp [wordLoop]
  | cons c rs ih =>
    intro hist cur
    simp only [wordLoop]
    split_ifs with h1 h2 h3
    · exact (List.suffix_cons c rs)
    · exact List.suffix_rfl
    · exact List.suffix_rfl
    · exact (ih (c :: hist) (c :: cur)).trans (List.suffix_cons c rs)

theorem wordLoop_rest_space : ∀ (rest hist cur : List Char), '-' ∉ rest →
    (wordLoop hist cur rest).2 = [] ∨
      ∃ d ds, (wordLoop hist cur rest).2 = d :: ds ∧ pySpace6 d = true := by
  intro rest
  induction rest with
  | nil => intro hist cur _; left; simp [wordLoop]
  | cons c rs ih =>
    intro hist cur hno
    simp only [wordLoop]
    split_ifs with h1 h2 h3
    · exfalso
      have hc : c = '-' := by
        simp only [Bool.and_eq_true, beq_iff_eq] at h1
        exact h1.1.1
      exact hno (hc ▸ List.mem_cons_self c rs)
    · exact Or.inr ⟨c, rs, rfl, h2⟩
    · exfalso
      have hla : laEmDash (c :: rs) = true := by
        simp only [Bool.and_eq_true] at h3
        exact h3.2
      exact hno ((laEmDash_head c rs hla) ▸ List.mem_cons_self c rs)
    · exact ih (c :: hist) (c :: cur) (fun hm => hno (List.mem_cons_of_mem c hm))

theorem splitChunksF_nil (fuel : Nat) (done : List Char) :
    splitChunksF fuel done [] = [] := by
  cases fuel <;> rfl

theorem splitChunksF_tiles : ∀ (fuel : Nat) (done rest : List Char),
    rest.length < fuel → (splitChunksF fuel done rest).flatten = rest := by
  intro fuel
  induction fuel with
  | zero => intro done rest h; omega
  | succ f ih =>
    intro done rest hlen
    cases rest with
    | nil => simp [splitChunksF]
    | cons c rs =>
      simp only [splitChunksF]
      split_ifs with h1 h2
      · rw [List.flatten_cons]
        rw [ih _ _ (by
          rw [List.dropWhile_cons_of_pos h1]
          have := (List.dropWhile_suffix (l := rs) pySpace6).length_le
          simp at hlen ⊢
          omega)]
        exact List.takeWhile_append_dropWhile pySpace6 (c :: rs)
      · rw [List.flatten_cons]
        have hc : c = '-' := laEmDash_head c rs (by
          simp only [Bool.and_eq_true] at h2
          exact h2.2)
        rw [ih _ _ (by
          rw [List.dropWhile_cons_of_pos (by simp [hc])]
          have := (List.dropWhile_suffix (l := rs) (fun x => x == '-')).length_le
          simp at hlen ⊢
          omega)]
        exact List.takeWhile_append_dropWhile (fun x => x == '-') (c :: rs)
      · rw [List.flatten_cons]
        rw [ih _ _ (by
          have := (wordLoop_rest_suffix rs (c :: done) [c]).length_le
          simp at hlen ⊢
          omega)]
        have := wordLoop_tiles rs (c :: done) [c]
        simpa using this

theorem splitChunksF_shape : ∀ (fuel : Nat) (done rest : List Char),
    rest.length < fuel → ∀ ch ∈ splitChunksF fuel done rest, ch ≠ [] ∧
      ((∀ x ∈ ch, pySpace6 x = true) ∨ (∀ x ∈ ch, pySpace6 x = false)) := by
  intro fuel
  induction fuel with
  | zero => intro done rest h; omega
  | succ f ih =>
    intro done rest hlen ch hch
    cases rest with
    | nil => simp [splitChunksF] at hch
    | cons c rs =>
      simp only [splitChunksF] at hch
      split_ifs at hch with h1 h2
      · rcases List.mem_cons.mp hch with rfl | hch2
        · refine ⟨by rw [List.takeWhile_cons_of_pos h1]; simp, Or.inl ?_⟩
          intro x hx
          exact List.mem_takeWhile_imp hx
        · refine ih _ _ ?_ ch hch2
          rw [List.dropWhile_cons_of_pos h1]
          have := (List.dropWhile_suffix (l := rs) pySpace6).length_le
          simp at hlen ⊢
          omega
      · have hc : c = '-' := laEmDash_head c rs (by
          simp only [Bool.and_eq_true] at h2
          exact h2.2)
        rcases List.mem_cons.mp hch with rfl | hch2
        · refine ⟨by rw [List.takeWhile_cons_of_pos (by simp [hc])]; simp, Or.inr ?_⟩
          intro x hx
          have hx2 : (x == '-') = true :=
            List.mem_takeWhile_imp (p := fun y => y == '-') hx
          rw [show x = '-' from by simpa using hx2]
          decide
        · refine ih _ _ ?_ ch hch2
          rw [List.dropWhile_cons_of_pos (by simp [hc])]
          have := (List.dropWhile_suffix (l := rs) (fun x => x == '-')).length_le
          simp at hlen ⊢
          omega
      · rcases List.mem_cons.mp hch with rfl | hch2
        · have hwc := wordLoop_chunk rs (c :: done) [c] (by simp)
            (by intro x hx; rcases List.mem_singleton.mp hx with rfl; simpa using h1)
          exact ⟨hwc.1, Or.inr hwc.2⟩
        · refine ih _ _ ?_ ch hch2
          have := (wordLoop_rest_suffix rs (c :: done) [c]).length_le
          simp at hlen ⊢
          omega

theorem splitChunksF_head_space (fuel : Nat) (done : List Char) (d : Char)
    (ds : List Char) (hd : pySpace6 d = true) :
    ∀ y ∈ (splitChunksF fuel done (d :: ds)).head?, ∀ x ∈ y, pySpace6 x = true := by
  cases fuel with
  | zero => simp [splitChunksF]
  | succ f =>
    simp only [splitChunksF, if_pos hd]
    intro y hy x hx
    rw [List.head?_cons, Option.mem_some_iff] at hy
    subst hy
    exact List.mem_takeWhile_imp hx

theorem splitChunksF_chain : ∀ (fuel : Nat) (done rest : List Char),
    rest.length < fuel → '-' ∉ rest →
    List.Chain' (fun a b => (∀ x ∈ a, pySpace6 x = true) ∨ (∀ x ∈ b, pySpace6 x = true))
      (splitChunksF fuel done rest) := by
  intro fuel
  induction fuel with
  | zero => intro done rest h; omega
  | succ f ih =>
    intro done rest hlen hno
    cases rest with
    | nil => simp [splitChunksF]
    | cons c rs =>
      simp only [splitChunksF]
      split_ifs with h1 h2
      · rw [List.chain'_cons']
        refine ⟨fun y _ => Or.inl (fun x hx => List.mem_takeWhile_imp hx), ?_⟩
        refine ih _ _ ?_ ?_
        · rw [List.dropWhile_cons_of_pos h1]
          have := (List.dropWhile_suffix (l := rs) pySpace6).length_le
          simp at hlen ⊢
          omega
        · intro hm
          exact hno ((List.dropWhile_suffix pySpace6).subset hm)
      · exfalso
        have hc : c = '-' := laEmDash_head c rs (by
          simp only [Bool.and_eq_true] at h2
          exact h2.2)
        exact hno (hc ▸ List.mem_cons_self c rs)
      · rw [List.chain'_cons']
        constructor
        · intro y hy
          rcases wordLoop_rest_space rs (c :: done) [c]
              (fun hm => hno (List.mem_cons_of_mem c hm)) with hnil | ⟨d, ds, heq, hd⟩
          · rw [hnil, splitChunksF_nil] at hy
            simp at hy
          · rw [heq] at hy
            exact Or.inr (splitChunksF_head_space f _ d ds hd y hy)
        · refine ih _ _ ?_ ?_
          · have := (wordLoop_rest_suffix rs (c :: done) [c]).length_le
            simp at hlen ⊢
            omega
          · intro hm
            have hsub := (wordLoop_rest_suffix rs (c :: done) [c]).subset hm
            exact hno (List.mem_cons_of_mem c hsub)

/-! ## Words of a flattened chunk list -/

theorem wordsOfD_flatten_chunks (chunks : List (List Char))
    (hshape : ∀ ch ∈ chunks, ch ≠ [] ∧
      ((∀ x ∈ ch, pySpace6 x = true) ∨ (∀ x ∈ ch, pySpace6 x = false)))
    (hchain : List.Chain' (fun a b =>
      (∀ x ∈ a, pySpace6 x = true) ∨ (∀ x ∈ b, pySpace6 x = true)) chunks) :
    wordsOfD chunks.flatten = (chunks.map wordsOfD).flatten := by
  induction chunks with
  | nil => rfl
  | cons ch rest ih =>
    have hsh := hshape ch (List.mem_cons_self ch rest)
    have htl : ∀ ch2 ∈ rest, ch2 ≠ [] ∧
        ((∀ x ∈ ch2, pySpace6 x = true) ∨ (∀ x ∈ ch2, pySpace6 x = false)) :=
      fun ch2 h2 => hshape ch2 (List.mem_cons_of_mem ch h2)
    have hctl : List.Chain' _ rest := (List.chain'_cons'.mp hchain).2
    rcases hsh with ⟨hne, hsp | hword⟩
    · rw [List.flatten_cons,
        wordsOfD_space_app ch _ (fun c hc => space6_to_uni c (hsp c hc)),
        List.map_cons, List.flatten_cons,
        wordsOfD_all_space ch (fun c hc => space6_to_uni c (hsp c hc)),
        List.nil_append]
      exact ih htl hctl
    · have hb : rest.flatten = [] ∨
          ∃ d bs, rest.flatten = d :: bs ∧ pyUniSpace d = true := by
        cases rest with
        | nil => exact Or.inl rfl
        | cons y ys =>
          have hyne := (htl y (List.mem_cons_self y ys)).1
          have hRy := (List.chain'_cons'.mp hchain).1 y (by simp)
          have hy : ∀ x ∈ y, pySpace6 x = true := by
            rcases hRy with hl | hr
            · exfalso
              obtain ⟨x, hx⟩ := List.exists_mem_of_ne_nil ch hne
              exact absurd ((hl x hx).symm.trans (hword x hx)) (by decide)
            · exact hr
          cases y with
          | nil => exact absurd rfl hyne
          | cons d ds =>
            refine Or.inr ⟨d, ds ++ ys.flatten, by simp, space6_to_uni d (hy d (by simp))⟩
      rw [List.flatten_cons, wordsOfD_append ch _ hb, List.map_cons, List.flatten_cons,
        ih htl hctl]

/-! ## Properties of the greedy line filling -/

theorem greedyTake_append : ∀ (l : List (List Char)) (w n : Nat),
    (greedyTake w n l).1 ++ (greedyTake w n l).2 = l := by
  intro l
  induction l with
  | nil => intro w n; rfl
  | cons ch rest ih =>
    intro w n
    simp only [greedyTake]
    split_ifs with h
    · simp only [List.cons_append, List.cons.injEq, true_and]
      exact ih w (n + ch.length)
    · rfl

theorem greedyTake_sum : ∀ (l : List (List Char)) (w n : Nat),
    (greedyTake w n l).1 = [] ∨ n + (((greedyTake w n l).1.map List.length).sum) ≤ w := by
  intro l
  induction l with
  | nil => intro w n; exact Or.inl rfl
  | cons ch rest ih =>
    intro w n
    simp only [greedyTake]
    split_ifs with h
    · refine Or.inr ?_
      rcases ih w (n + ch.length) with hnil | hsum
      · rw [hnil]
        simpa using h
      · simp only [List.map_cons, List.sum_cons]
        omega
    · exact Or.inl rfl

theorem greedyTake_nil_head (w n : Nat) (ch : List Char) (t : List (List Char))
    (h : (greedyTake w n (ch :: t)).1 = []) : ¬ (n + ch.length ≤ w) := by
  simp only [greedyTake] at h
  split_ifs at h with h2
  all_goals first
  | exact h2
  | simp at h

/-! ## Properties of the line-emission stage -/

theorem dropTrailingWs_pfx (t : List (List Char)) : dropTrailingWs t <+: t := by
  rw [dropTrailingWs]
  cases hl : t.getLast? with
  | none => exact List.prefix_rfl
  | some last =>
    show (if isWsChunk last = true then t.dropLast else t) <+: t
    split_ifs with h
    · exact List.dropLast_prefix t
    · exact List.prefix_rfl

theorem dropTrailingWs_sum (t : List (List Char)) :
    ((dropTrailingWs t).map List.length).sum ≤ (t.map List.length).sum := by
  obtain ⟨s, hs⟩ := dropTrailingWs_pfx t
  have h2 : ((dropTrailingWs t).map List.length).sum + (s.map List.length).sum
      = (t.map List.length).sum := by
    conv_rhs => rw [← hs]
    simp
  omega

theorem wordsOfD_of_ws_chunk (ch : List Char) (h : isWsChunk ch = true) :
    wordsOfD ch = [] := by
  refine wordsOfD_all_space ch ?_
  intro c hc
  exact List.all_eq_true.mp h c hc

theorem dropTrailingWs_words (t : List (List Char)) :
    ((dropTrailingWs t).map wordsOfD).flatten = (t.map wordsOfD).flatten := by
  rw [dropTrailingWs]
  cases hl : t.getLast? with
  | none => rfl
  | some last =>
    show ((if isWsChunk last = true then t.dropLast else t).map wordsOfD).flatten
      = (t.map wordsOfD).flatten
    split_ifs with h
    · obtain ⟨ys, hys⟩ := List.getLast?_eq_some_iff.mp hl
      subst hys
      rw [List.dropLast_concat, List.map_append, List.flatten_append]
      simp [wordsOfD_of_ws_chunk last h]
    · rfl

theorem emitLine_some (cur : List (List Char)) (line : List Char)
    (h : emitLine cur = some line) : line = cur.flatten ∧ cur ≠ [] := by
  rw [emitLine] at h
  split_ifs at h with h2
  constructor
  · exact (Option.some_inj.mp h).symm
  · intro hc
    subst hc
    simp at h2

theorem emitLine_none (cur : List (List Char)) (h : emitLine cur = none) : cur = [] := by
  rw [emitLine] at h
  split_ifs at h with h2
  all_goals first
  | simpa using h2
  | simp at h

/-! ## Specification of one line-building step -/

theorem lineStepCore_spec (w : Nat) (chunks1 : List (List Char))
    (hshape : ∀ ch ∈ chunks1, ch ≠ [] ∧
      ((∀ x ∈ ch, pySpace6 x = true) ∨ (∀ x ∈ ch, pySpace6 x = false))) :
    ((lineStepCore w chunks1).2 <:+ chunks1) ∧
    (chunks1 ≠ [] → (lineStepCore w chunks1).2.length < chunks1.length) ∧
    (∀ line, (lineStepCore w chunks1).1 = some line →
      (line.length ≤ w ∨ (line ≠ [] ∧ ∀ x ∈ line, pySpace6 x = false))) ∧
    (List.Chain' (fun a b =>
        (∀ x ∈ a, pySpace6 x = true) ∨ (∀ x ∈ b, pySpace6 x = true)) chunks1 →
      (chunks1.map wordsOfD).flatten
        = (match (lineStepCore w chunks1).1 with
           | some l => wordsOfD l
           | none => []) ++ (((lineStepCore w chunks1).2.map wordsOfD).flatten)) := by
  have happ := greedyTake_append chunks1 w 0
  have hsum := greedyTake_sum chunks1 w 0
  rcases hg : greedyTake w 0 chunks1 with ⟨t, r⟩
  rw [hg] at happ hsum
  simp only at happ hsum
  have htpre : t <+: chunks1 := ⟨r, happ⟩
  have htsub : ∀ x ∈ t, x ∈ chunks1 := fun x hx => by
    rw [← happ]; exact List.mem_append_left r hx
  -- facts about the emission of the greedy line t
  have hemit_t : ∀ line, emitLine (dropTrailingWs t) = some line →
      (line.length ≤ w ∨ (line ≠ [] ∧ ∀ x ∈ line, pySpace6 x = false)) := by
    intro line hline
    obtain ⟨hlval, hlne⟩ := emitLine_some _ _ hline
    refine Or.inl ?_
    have ht_ne : t ≠ [] := by
      intro hteq
      subst hteq
      exact hlne (by rfl)
    have hsum2 : ((t.map List.length).sum) ≤ w := by
      rcases hsum with hnil | hle
      · exact absurd hnil ht_ne
      · omega
    rw [hlval, List.length_flatten]
    calc (((dropTrailingWs t).map List.length).sum)
        ≤ (t.map List.length).sum := dropTrailingWs_sum t
      _ ≤ w := hsum2
  have hwords_t : List.Chain' (fun a b =>
        (∀ x ∈ a, pySpace6 x = true) ∨ (∀ x ∈ b, pySpace6 x = true)) chunks1 →
      (match emitLine (dropTrailingWs t) with
       | some l => wordsOfD l
       | none => ([] : List (List Char))) = (t.map wordsOfD).flatten := by
    intro hchain
    cases hline : emitLine (dropTrailingWs t) with
    | none =>
      have hdtw := emitLine_none _ hline
      have hnil := dropTrailingWs_words t
      rw [hdtw] at hnil
      simp only [List.map_nil, List.flatten_nil] at hnil
      show ([] : List (List Char)) = (t.map wordsOfD).flatten
      exact hnil
    | some l =>
      obtain ⟨hlval, hlne⟩ := emitLine_some _ _ hline
      have hdshape : ∀ ch ∈ dropTrailingWs t, ch ≠ [] ∧
          ((∀ x ∈ ch, pySpace6 x = true) ∨ (∀ x ∈ ch, pySpace6 x = false)) :=
        fun ch hch => hshape ch (htsub ch ((dropTrailingWs_pfx t).subset hch))
      have hdchain := hchain.prefix ((dropTrailingWs_pfx t).trans htpre)
      show wordsOfD l = (t.map wordsOfD).flatten
      rw [hlval, wordsOfD_flatten_chunks _ hdshape hdchain, dropTrailingWs_words]
  cases r with
  | nil =>
    have hcore : lineStepCore w chunks1 = (emitLine (dropTrailingWs t), []) := by
      simp only [lineStepCore]
      rw [hg]
    rw [List.append_nil] at happ
    subst happ
    rw [hcore]
    refine ⟨List.nil_suffix, fun hne => List.length_pos.mpr hne, hemit_t, ?_⟩
    intro hchain
    simp only [List.map_nil, List.flatten_nil, List.append_nil]
    exact (hwords_t hchain).symm
  | cons ch rs =>
    have hch_mem : ch ∈ chunks1 := by
      rw [← happ]; exact List.mem_append_right t (List.mem_cons_self ch rs)
    have hch_shape := hshape ch hch_mem
    by_cases hlong : (decide (w < ch.length) && t.isEmpty) = true
    · -- _handle_long_word places the over-long chunk alone on the line
      have hcore : lineStepCore w chunks1 = (emitLine (dropTrailingWs [ch]), rs) := by
        simp only [lineStepCore]
        rw [hg]
        show (emitLine (dropTrailingWs
          (if (decide (w < ch.length) && t.isEmpty) = true then ([ch], rs)
           else (t, ch :: rs)).1),
          (if (decide (w < ch.length) && t.isEmpty) = true then ([ch], rs)
           else (t, ch :: rs)).2) = _
        rw [if_pos hlong]
      have ht_nil : t = [] := by
        rcases Bool.and_eq_true_iff.mp hlong with ⟨_, hte⟩
        exact List.isEmpty_iff.mp hte
      subst ht_nil
      simp only [List.nil_append] at happ
      rw [hcore]
      refine ⟨(List.suffix_cons ch rs).trans ⟨[], by simpa using happ⟩, ?_, ?_, ?_⟩
      · intro _
        rw [← happ]
        simp
      · intro line hline
        obtain ⟨hlval, hlne⟩ := emitLine_some _ _ hline
        have hnws : isWsChunk ch = false := by
          cases hws : isWsChunk ch with
          | false => rfl
          | true =>
            exfalso
            apply hlne
            rw [dropTrailingWs]
            simp [hws]
        have hword : ∀ x ∈ ch, pySpace6 x = false := by
          rcases hch_shape.2 with hsp | hw
          · exfalso
            have : isWsChunk ch = true :=
              List.all_eq_true.mpr (fun x hx => space6_to_uni x (hsp x hx))
            rw [this] at hnws
            exact Bool.noConfusion hnws
          · exact hw
        have hdtw : dropTrailingWs [ch] = [ch] := by
          rw [dropTrailingWs]
          simp [hnws]
        rw [hdtw] at hlval
        refine Or.inr ⟨?_, ?_⟩
        · rw [hlval]
          simpa using hch_shape.1
        · intro x hx
          rw [hlval] at hx
          simp only [List.flatten_cons, List.flatten_nil, List.append_nil] at hx
          exact hword x hx
      · intro _
        rw [← happ]
        simp only [List.map_cons, List.flatten_cons]
        cases hws : isWsChunk ch with
        | true =>
          have hdtw : dropTrailingWs [ch] = [] := by
            rw [dropTrailingWs]
            simp [hws]
          rw [hdtw]
          show wordsOfD ch ++ _ = _
          rw [wordsOfD_of_ws_chunk ch hws]
          simp [emitLine]
        | false =>
          have hdtw : dropTrailingWs [ch] = [ch] := by
            rw [dropTrailingWs]
            simp [hws]
          rw [hdtw]
          show wordsOfD ch ++ _ = _
          simp [emitLine]
    · -- the over-long chunk (if any) stays for the next line
      have hcore : lineStepCore w chunks1 = (emitLine (dropTrailingWs t), ch :: rs) := by
        simp only [lineStepCore]
        rw [hg]
        show (emitLine (dropTrailingWs
          (if (decide (w < ch.length) && t.isEmpty) = true then ([ch], rs)
           else (t, ch :: rs)).1),
          (if (decide (w < ch.length) && t.isEmpty) = true then ([ch], rs)
           else (t, ch :: rs)).2) = _
        rw [if_neg hlong]
      rw [hcore]
      have ht_ne : t ≠ [] := by
        intro hteq
        subst hteq
        simp only [List.nil_append] at happ
        have harg : greedyTake w 0 (ch :: rs) = ([], ch :: rs) := by
          conv_lhs => rw [happ]
          exact hg
        have hgt := greedyTake_nil_head w 0 ch rs (by rw [harg])
        apply hlong
        rw [Bool.and_eq_true_iff]
        exact ⟨decide_eq_true (by omega), by simp⟩
      refine ⟨⟨t, happ⟩, ?_, hemit_t, ?_⟩
      · intro _
        rw [← happ]
        have := List.length_pos.mpr ht_ne
        simp only [List.length_append]
        omega
      · intro hchain
        rw [← happ]
        simp only [List.map_append, List.flatten_append]
        rw [hwords_t hchain]

/-- One step of the `_wrap_chunks` outer loop including the leading
whitespace drop performed for every line after the first
(`drop_whitespace=True`): the rest is a suffix, strictly shorter when
chunks remain, emitted lines fit or are single unbreakable chunks, and
the words are preserved. -/
theorem lineStep_spec (w : Nat) (started : Bool) (chunks : List (List Char))
    (hshape : ∀ ch ∈ chunks, ch ≠ [] ∧
      ((∀ x ∈ ch, pySpace6 x = true) ∨ (∀ x ∈ ch, pySpace6 x = false))) :
    ((lineStep w started chunks).2 <:+ chunks) ∧
    (chunks ≠ [] → (lineStep w started chunks).2.length < chunks.length) ∧
    (∀ line, (lineStep w started chunks).1 = some line →
      (line.length ≤ w ∨ (line ≠ [] ∧ ∀ x ∈ line, pySpace6 x = false))) ∧
    (List.Chain' (fun a b =>
        (∀ x ∈ a, pySpace6 x = true) ∨ (∀ x ∈ b, pySpace6 x = true)) chunks →
      (chunks.map wordsOfD).flatten
        = (match (lineStep w started chunks).1 with
           | some l => wordsOfD l
           | none => []) ++ (((lineStep w started chunks).2.map wordsOfD).flatten)) := by
  cases chunks with
  | nil =>
    refine ⟨List.nil_suffix, fun hne => absurd rfl hne, ?_, ?_⟩
    · intro line hline
      exact Option.noConfusion hline
    · intro _
      rfl
  | cons ch rest =>
    by_cases hdrop : (started && isWsChunk ch) = true
    · have heq : lineStep w started (ch :: rest) = lineStepCore w rest := by
        simp only [lineStep]
        rw [if_pos hdrop]
      obtain ⟨hsfx, hlt, hlines, hwords⟩ := lineStepCore_spec w rest
        (fun c hc => hshape c (List.mem_cons_of_mem ch hc))
      rw [heq]
      refine ⟨hsfx.trans (List.suffix_cons ch rest), ?_, hlines, ?_⟩
      · intro _
        have hle := hsfx.length_le
        simp only [List.length_cons]
        omega
      · intro hchain
        have hws : isWsChunk ch = true := (Bool.and_eq_true_iff.mp hdrop).2
        simp only [List.map_cons, List.flatten_cons]
        rw [wordsOfD_of_ws_chunk ch hws, List.nil_append]
        exact hwords hchain.tail
    · have heq : lineStep w started (ch :: rest) = lineStepCore w (ch :: rest) := by
        simp only [lineStep]
        rw [if_neg hdrop]
      rw [heq]
      exact lineStepCore_spec w (ch :: rest) hshape

theorem wrapChunksF_cons_some (w f : Nat) (started : Bool) (ch : List Char)
    (rest rest2 : List (List Char)) (l : List Char)
    (h : lineStep w started (ch :: rest) = (some l, rest2)) :
    wrapChunksF w (f + 1) started (ch :: rest) = l :: wrapChunksF w f true rest2 := by
  show (match (lineStep w started (ch :: rest)).1 with
       | some l2 => l2 :: wrapChunksF w f true (lineStep w started (ch :: rest)).2
       | none => wrapChunksF w f started (lineStep w started (ch :: rest)).2)
      = l :: wrapChunksF w f true rest2
  rw [h]

theorem wrapChunksF_cons_none (w f : Nat) (started : Bool) (ch : List Char)
    (rest rest2 : List (List Char))
    (h : lineStep w started (ch :: rest) = (none, rest2)) :
    wrapChunksF w (f + 1) started (ch :: rest) = wrapChunksF w f started rest2 := by
  show (match (lineStep w started (ch :: rest)).1 with
       | some l2 => l2 :: wrapChunksF w f true (lineStep w started (ch :: rest)).2
       | none => wrapChunksF w f started (lineStep w started (ch :: rest)).2)
      = wrapChunksF w f started rest2
  rw [h]

/-- `_wrap_chunks` with `break_long_words=False`: every produced line
either fits the width or is a single unbreakable (whitespace-free)
chunk, and, when no two word chunks are adjacent, concatenating the
produced lines preserves the words of the chunk stream. -/
theorem wrapChunksF_spec : ∀ (fuel w : Nat) (started : Bool) (chunks : List (List Char)),
    chunks.length < fuel →
    (∀ ch ∈ chunks, ch ≠ [] ∧
      ((∀ x ∈ ch, pySpace6 x = true) ∨ (∀ x ∈ ch, pySpace6 x = false))) →
    (∀ l ∈ wrapChunksF w fuel started chunks,
      l.length ≤ w ∨ (l ≠ [] ∧ ∀ x ∈ l, pySpace6 x = false)) ∧
    (List.Chain' (fun a b =>
        (∀ x ∈ a, pySpace6 x = true) ∨ (∀ x ∈ b, pySpace6 x = true)) chunks →
      ((wrapChunksF w fuel started chunks).map wordsOfD).flatten
        = (chunks.map wordsOfD).flatten) := by
  intro fuel
  induction fuel with
  | zero =>
    intro w started chunks hlen hshape
    omega
  | succ f ih =>
    intro w started chunks hlen hshape
    cases chunks with
    | nil =>
      constructor
      · intro l hl
        exact absurd hl (List.not_mem_nil l)
      · intro _
        rfl
    | cons ch rest =>
      obtain ⟨hsfx, hlt, hlines, hwords⟩ := lineStep_spec w started (ch :: rest) hshape
      rcases hls : lineStep w started (ch :: rest) with ⟨lo, rest2⟩
      rw [hls] at hsfx hlt hlines hwords
      have hsub : ∀ x ∈ rest2, x ∈ ch :: rest := fun x hx => hsfx.subset hx
      have hlen2 : rest2.length < f := by
        have h1 := hlt (by simp)
        simp only [List.length_cons] at hlen h1
        omega
      have hshape2 : ∀ c ∈ rest2, c ≠ [] ∧
          ((∀ x ∈ c, pySpace6 x = true) ∨ (∀ x ∈ c, pySpace6 x = false)) :=
        fun c hc => hshape c (hsub c hc)
      cases lo with
      | none =>
        have hstep := wrapChunksF_cons_none w f started ch rest rest2 hls
        obtain ⟨ihl, ihw⟩ := ih w started rest2 hlen2 hshape2
        rw [hstep]
        refine ⟨ihl, ?_⟩
        intro hchain
        have h2 : ((ch :: rest).map wordsOfD).flatten
            = (rest2.map wordsOfD).flatten := by simpa using hwords hchain
        rw [ihw (hchain.suffix hsfx)]
        exact h2.symm
      | some l =>
        have hstep := wrapChunksF_cons_some w f started ch rest rest2 l hls
        obtain ⟨ihl, ihw⟩ := ih w true rest2 hlen2 hshape2
        rw [hstep]
        constructor
        · intro l2 hl2
          rcases List.mem_cons.mp hl2 with h1 | h1
          · subst h1
            exact hlines l2 rfl
          · exact ihl l2 h1
        · intro hchain
          have h2 : ((ch :: rest).map wordsOfD).flatten
              = wordsOfD l ++ (rest2.map wordsOfD).flatten := by simpa using hwords hchain
          simp only [List.map_cons, List.flatten_cons]
          rw [ihw (hchain.suffix hsfx)]
          exact h2.symm

/-- A character map that keeps whitespace whitespace and fixes every
non-whitespace character does not change the word decomposition. -/
theorem wordsOfD_map_class (f : Char → Char)
    (h1 : ∀ c, pyUniSpace c = true → pyUniSpace (f c) = true)
    (h2 : ∀ c, pyUniSpace c = false → f c = c) :
    ∀ cs : List Char, wordsOfD (cs.map f) = wordsOfD cs := by
  suffices H : ∀ (n : Nat) (cs : List Char), cs.length ≤ n →
      wordsOfD (cs.map f) = wordsOfD cs from fun cs => H cs.length cs le_rfl
  intro n
  induction n with
  | zero =>
    intro cs hcs
    have h0 : cs = [] := List.length_eq_zero.mp (Nat.le_zero.mp hcs)
    subst h0
    rfl
  | succ m ih =>
    intro cs hcs
    cases cs with
    | nil => rfl
    | cons c rest =>
      simp only [List.length_cons] at hcs
      simp only [List.map_cons]
      cases hc : pyUniSpace c with
      | true =>
        rw [wordsOfD_cons_space _ _ (h1 c hc), wordsOfD_cons_space c rest hc]
        exact ih rest (by omega)
      | false =>
        rw [h2 c hc, wordsOfD_cons_word c _ hc, wordsOfD_cons_word c rest hc]
        have hco : ((fun x => !pyUniSpace x) ∘ f) = (fun x => !pyUniSpace x) := by
          funext x
          simp only [Function.comp]
          cases hx : pyUniSpace x with
          | true => rw [h1 x hx]
          | false => rw [h2 x hx, hx]
        rw [List.takeWhile_map, List.dropWhile_map, hco]
        have htw : (rest.takeWhile (fun x => !pyUniSpace x)).map f
            = rest.takeWhile (fun x => !pyUniSpace x) := by
          have hmc := List.map_congr_left (l := rest.takeWhile (fun x => !pyUniSpace x))
            (f := f) (g := id) ?_
          · simpa using hmc
          · intro a ha
            have hpa := List.mem_takeWhile_imp ha
            have hpa2 : pyUniSpace a = false := by
              revert hpa
              cases pyUniSpace a <;> simp
            simp [h2 a hpa2]
        rw [htw]
        have hlen : (rest.dropWhile (fun x => !pyUniSpace x)).length ≤ m := by
          have h3 := (List.dropWhile_suffix (l := rest) (fun x => !pyUniSpace x)).length_le
          omega
        rw [ih _ hlen]

theorem expandTabs_nil_eq (col : Nat) : expandTabs col [] = [] := rfl

/-- `str.expandtabs` copies a run of non-whitespace characters
verbatim, only advancing the column counter. -/
theorem expandTabs_app_word : ∀ (a : List Char) (col : Nat) (b : List Char),
    (∀ x ∈ a, pyUniSpace x = false) →
    expandTabs col (a ++ b) = a ++ expandTabs (col + a.length) b := by
  intro a
  induction a with
  | nil =>
    intro col b h
    simp
  | cons x a2 ih =>
    intro col b h
    have hx := h x (List.mem_cons_self x a2)
    have hxt : ¬ x = '\t' := by
      intro he
      subst he
      exact absurd hx (by decide)
    have hxnr : ¬ (x = '\n' ∨ x = '\r') := by
      rintro (he | he) <;> (subst he; exact absurd hx (by decide))
    rw [List.cons_append]
    simp only [expandTabs]
    rw [if_neg hxt, if_neg hxnr,
      ih (col + 1) b (fun y hy => h y (List.mem_cons_of_mem x hy))]
    have harith : col + 1 + a2.length = col + (x :: a2).length := by
      simp only [List.length_cons]
      omega
    rw [harith]
    rfl

/-- `str.expandtabs` turns a whitespace-led tail into a tail led by a
whitespace character. -/
theorem expandTabs_cons_space (col : Nat) (d : Char) (b : List Char)
    (hd : pyUniSpace d = true) :
    ∃ e es, expandTabs col (d :: b) = e :: es ∧ pyUniSpace e = true := by
  simp only [expandTabs]
  by_cases h1 : d = '\t'
  · rw [if_pos h1]
    have hk : 8 - col % 8 = (8 - col % 8 - 1) + 1 := by omega
    rw [hk, List.replicate_succ, List.cons_append]
    exact ⟨' ', _, rfl, by decide⟩
  · rw [if_neg h1]
    by_cases h2 : d = '\n' ∨ d = '\r'
    · rw [if_pos h2]
      exact ⟨d, _, rfl, hd⟩
    · rw [if_neg h2]
      exact ⟨d, _, rfl, hd⟩

theorem dropWhile_head_false {α : Type} (p : α → Bool) : ∀ (l : List α) (d : α) (b2 : List α),
    l.dropWhile p = d :: b2 → p d = false := by
  intro l
  induction l with
  | nil =>
    intro d b2 h
    exact List.noConfusion h
  | cons x xs ih =>
    intro d b2 h
    rw [List.dropWhile_cons] at h
    split_ifs at h with hx
    · exact ih d b2 h
    · injection h with h1 h2
      rw [← h1]
      revert hx
      cases p x <;> simp

theorem takeWhile_app_all {α : Type} (p : α → Bool) : ∀ (a b : List α),
    (∀ x ∈ a, p x = true) → (a ++ b).takeWhile p = a ++ b.takeWhile p := by
  intro a
  induction a with
  | nil =>
    intro b h
    rfl
  | cons x xs ih =>
    intro b h
    rw [List.cons_append, List.takeWhile_cons, if_pos (h x (List.mem_cons_self x xs)),
      List.cons_append, ih b (fun y hy => h y (List.mem_cons_of_mem x hy))]

theorem dropWhile_app_all {α : Type} (p : α → Bool) : ∀ (a b : List α),
    (∀ x ∈ a, p x = true) → (a ++ b).dropWhile p = b.dropWhile p := by
  intro a
  induction a with
  | nil =>
    intro b h
    rfl
  | cons x xs ih =>
    intro b h
    rw [List.cons_append, List.dropWhile_cons, if_pos (h x (List.mem_cons_self x xs)),
      ih b (fun y hy => h y (List.mem_cons_of_mem x hy))]

/-- Tab expansion does not change the word decomposition: tabs become
spaces and every other character is copied. -/
theorem wordsOfD_expandTabs : ∀ (n col : Nat) (cs : List Char), cs.length ≤ n →
    wordsOfD (expandTabs col cs) = wordsOfD cs := by
  intro n
  induction n with
  | zero =>
    intro col cs hcs
    have h0 : cs = [] := List.length_eq_zero.mp (Nat.le_zero.mp hcs)
    subst h0
    rfl
  | succ m ih =>
    intro col cs hcs
    cases cs with
    | nil => rfl
    | cons c rest =>
      simp only [List.length_cons] at hcs
      cases hc : pyUniSpace c with
      | true =>
        rw [wordsOfD_cons_space c rest hc]
        simp only [expandTabs]
        by_cases h1 : c = '\t'
        · rw [if_pos h1]
          rw [wordsOfD_space_app _ _ (fun x hx => by
            have hx2 := List.eq_of_mem_replicate hx
            subst hx2
            decide)]
          exact ih _ rest (by omega)
        · rw [if_neg h1]
          by_cases h2 : c = '\n' ∨ c = '\r'
          · rw [if_pos h2, wordsOfD_cons_space _ _ hc]
            exact ih _ rest (by omega)
          · rw [if_neg h2, wordsOfD_cons_space _ _ hc]
            exact ih _ rest (by omega)
      | false =>
        have hct : ¬ c = '\t' := by
          intro he
          subst he
          exact absurd hc (by decide)
        have hcnr : ¬ (c = '\n' ∨ c = '\r') := by
          rintro (he | he) <;> (subst he; exact absurd hc (by decide))
        simp only [expandTabs]
        rw [if_neg hct, if_neg hcnr]
        have ha : ∀ x ∈ rest.takeWhile (fun x => !pyUniSpace x), pyUniSpace x = false := by
          intro x hx
          have hpx := List.mem_takeWhile_imp hx
          revert hpx
          cases pyUniSpace x <;> simp
        have hap : ∀ x ∈ rest.takeWhile (fun x => !pyUniSpace x), (!pyUniSpace x) = true := by
          intro x hx
          rw [ha x hx]
          rfl
        have hE : expandTabs (col + 1) rest
            = rest.takeWhile (fun x => !pyUniSpace x)
              ++ expandTabs (col + 1 + (rest.takeWhile (fun x => !pyUniSpace x)).length)
                  (rest.dropWhile (fun x => !pyUniSpace x)) := by
          conv_lhs => rw [← List.takeWhile_append_dropWhile (p := fun x => !pyUniSpace x)
            (l := rest)]
          exact expandTabs_app_word _ _ _ ha
        rw [hE, wordsOfD_cons_word c rest hc, wordsOfD_cons_word c _ hc]
        cases hb : rest.dropWhile (fun x => !pyUniSpace x) with
        | nil =>
          rw [expandTabs_nil_eq, List.append_nil, takeWhile_all _ _ hap]
          have hdw : (rest.takeWhile (fun x => !pyUniSpace x)).dropWhile
              (fun x => !pyUniSpace x) = [] :=
            List.dropWhile_eq_nil_iff.mpr (fun x hx => hap x hx)
          rw [hdw]
        | cons d b2 =>
          have hd : pyUniSpace d = true := by
            have hdf : (!pyUniSpace d) = false :=
              dropWhile_head_false (fun x => !pyUniSpace x) rest d b2 hb
            revert hdf
            cases pyUniSpace d <;> simp
          obtain ⟨e, es, hE2, he⟩ := expandTabs_cons_space
            (col + 1 + (rest.takeWhile (fun x => !pyUniSpace x)).length) d b2 hd
          rw [hE2]
          have hpe : ¬ ((!pyUniSpace e) = true) := by
            rw [he]
            decide
          rw [takeWhile_app_all _ _ _ hap, dropWhile_app_all _ _ _ hap,
            List.takeWhile_cons, if_neg hpe, List.dropWhile_cons, if_neg hpe,
            List.append_nil, ← hE2]
          have hlb : (d :: b2).length ≤ m := by
            have h3 := (List.dropWhile_suffix (l := rest) (fun x => !pyUniSpace x)).length_le
            rw [hb] at h3
            omega
          rw [ih _ (d :: b2) hlb]

theorem munge_class1 (c : Char) (hc : pyUniSpace c = true) :
    pyUniSpace (if isMungedChar c then ' ' else c) = true := by
  by_cases hm : isMungedChar c = true
  · rw [if_pos hm]
    decide
  · rw [if_neg hm]
    exact hc

theorem munge_class2 (c : Char) (hc : pyUniSpace c = false) :
    (if isMungedChar c then ' ' else c) = c := by
  have hm : ¬ (isMungedChar c = true) := by
    intro hm2
    rw [isMungedChar] at hm2
    simp only [Bool.or_eq_true, beq_iff_eq] at hm2
    rcases hm2 with ((((h | h) | h) | h) | h) <;> (subst h; exact absurd hc (by decide))
  rw [if_neg hm]

/-- `_munge_whitespace` (tab expansion followed by the whitespace
translation) does not change the word decomposition. -/
theorem wordsOfD_munge (cs : List Char) : wordsOfD (munge cs) = wordsOfD cs := by
  rw [munge,
    wordsOfD_map_class (fun c => if isMungedChar c then ' ' else c)
      munge_class1 munge_class2 (expandTabs 0 cs)]
  exact wordsOfD_expandTabs cs.length 0 cs le_rfl

theorem expandTabs_mem : ∀ (cs : List Char) (col : Nat) (x : Char),
    x ∈ expandTabs col cs → x = ' ' ∨ x ∈ cs := by
  intro cs
  induction cs with
  | nil =>
    intro col x hx
    exact absurd hx (List.not_mem_nil x)
  | cons c rest ih =>
    intro col x hx
    simp only [expandTabs] at hx
    split_ifs at hx with h1 h2
    · rcases List.mem_append.mp hx with h | h
      · exact Or.inl (List.eq_of_mem_replicate h)
      · rcases ih _ x h with h3 | h3
        · exact Or.inl h3
        · exact Or.inr (List.mem_cons_of_mem c h3)
    · rcases List.mem_cons.mp hx with h | h
      · exact Or.inr (List.mem_cons.mpr (Or.inl h))
      · rcases ih _ x h with h3 | h3
        · exact Or.inl h3
        · exact Or.inr (List.mem_cons_of_mem c h3)
    · rcases List.mem_cons.mp hx with h | h
      · exact Or.inr (List.mem_cons.mpr (Or.inl h))
      · rcases ih _ x h with h3 | h3
        · exact Or.inl h3
        · exact Or.inr (List.mem_cons_of_mem c h3)

theorem munge_no_hyphen (cs : List Char) (h : '-' ∉ cs) : '-' ∉ munge cs := by
  intro hmem
  rw [munge] at hmem
  obtain ⟨y, hy, hyx⟩ := List.mem_map.mp hmem
  by_cases hm : isMungedChar y = true
  · rw [if_pos hm] at hyx
    exact absurd hyx (by decide)
  · rw [if_neg hm] at hyx
    subst hyx
    rcases expandTabs_mem cs 0 '-' hy with h1 | h1
    · exact absurd h1 (by decide)
    · exact h h1

theorem wrapChunks_lines (w : Nat) (cs : List Char) :
    ∀ l ∈ wrapChunks w (splitChunks cs),
      l.length ≤ w ∨ (l ≠ [] ∧ ∀ x ∈ l, pySpace6 x = false) := by
  have hshape := splitChunksF_shape (cs.length + 1) [] cs (by omega)
  exact (wrapChunksF_spec ((splitChunks cs).length + 1) w false (splitChunks cs)
    (by omega) hshape).1

theorem wrapChunks_words (w : Nat) (cs : List Char) (hno : '-' ∉ cs) :
    ((wrapChunks w (splitChunks cs)).map wordsOfD).flatten = wordsOfD cs := by
  have hlt : cs.length < cs.length + 1 := by omega
  have hshape := splitChunksF_shape (cs.length + 1) [] cs hlt
  have hchain := splitChunksF_chain (cs.length + 1) [] cs hlt hno
  have htiles : (splitChunks cs).flatten = cs := splitChunksF_tiles (cs.length + 1) [] cs hlt
  have h1 := (wrapChunksF_spec ((splitChunks cs).length + 1) w false (splitChunks cs)
    (by omega) hshape).2 hchain
  show ((wrapChunksF w ((splitChunks cs).length + 1) false (splitChunks cs)).map
    wordsOfD).flatten = wordsOfD cs
  rw [h1, ← wordsOfD_flatten_chunks (splitChunks cs) hshape hchain, htiles]

/-- C7 (counterexample): at width 25 the Text Wrapper splits the single
whitespace-delimited word `aaaaaaaaaaaaaaa-bbbbbbbbbbbbbb` across two
lines at its hyphen (`break_on_hyphens` is left at its default `True`),
even though both output lines are within the budget, refuting "never
splits a single word across two lines". -/
theorem c7_counterexample :
    pyWrap "aaaaaaaaaaaaaaa-bbbbbbbbbbbbbb" 25
      = .ok ["aaaaaaaaaaaaaaa-", "bbbbbbbbbbbbbb"] ∧
    wordsOf "aaaaaaaaaaaaaaa-bbbbbbbbbbbbbb" = ["aaaaaaaaaaaaaaa-bbbbbbbbbbbbbb"] ∧
    wordsOf (joinNL ["aaaaaaaaaaaaaaa-", "bbbbbbbbbbbbbb"])
      ≠ wordsOf "aaaaaaaaaaaaaaa-bbbbbbbbbbbbbb" ∧
    ("aaaaaaaaaaaaaaa-" : String).length ≤ 25 ∧
    ("bbbbbbbbbbbbbb" : String).length ≤ 25 :=
  ⟨by rfl, by rfl, by decide, by decide, by decide⟩

/-- C7 (amended): for every input string and every width the Text
Wrapper accepts, every produced line either fits the character budget
or contains no whitespace character at all (it is a single unbreakable
chunk, which with `break_long_words=False` is placed alone on its
line); and whenever the input contains no hyphen — so the default
`break_on_hyphens=True` chunking cannot cut inside a word — the
whitespace-delimited words of the newline-joined output are exactly
the words of the input: no word is split and none is lost. -/
theorem c7_amended_wrap (s : String) (w : Nat) (lines : List String)
    (h : pyWrap s w = .ok lines) :
    (∀ l ∈ lines, l.length ≤ w ∨ (l.data ≠ [] ∧ ∀ x ∈ l.data, pySpace6 x = false)) ∧
    ('-' ∉ s.data → wordsOf (joinNL lines) = wordsOf s) := by
  rw [pyWrap] at h
  split_ifs at h with hw
  have hl : (wrapChunks w (splitChunks (munge s.data))).map (fun l => String.mk l)
      = lines := by
    injection h
  subst hl
  constructor
  · intro l hl2
    obtain ⟨lc, hlc, hmk⟩ := List.mem_map.mp hl2
    subst hmk
    exact wrapChunks_lines w (munge s.data) lc hlc
  · intro hno
    have hno2 : '-' ∉ munge s.data := munge_no_hyphen s.data hno
    have hwords := wrapChunks_words w (munge s.data) hno2
    have hdata : ((wrapChunks w (splitChunks (munge s.data))).map
          (fun l => String.mk l)).map String.data
        = wrapChunks w (splitChunks (munge s.data)) := by
      rw [List.map_map]
      have hcomp : (String.data ∘ fun l => String.mk l) = id := by
        funext a
        rfl
      rw [hcomp, List.map_id]
    have hkey : wordsOfD (joinNLData (((wrapChunks w (splitChunks (munge s.data))).map
          (fun l => String.mk l)).map String.data))
        = wordsOfD s.data := by
      rw [hdata, wordsOfD_joinNLData, hwords, wordsOfD_munge]
    show (wordsOfD (joinNL ((wrapChunks w (splitChunks (munge s.data))).map
        (fun l => String.mk l))).data).map (fun l => String.mk l)
      = (wordsOfD s.data).map (fun l => String.mk l)
    rw [show (joinNL ((wrapChunks w (splitChunks (munge s.data))).map
        (fun l => String.mk l))).data
      = joinNLData (((wrapChunks w (splitChunks (munge s.data))).map
          (fun l => String.mk l)).map String.data) from rfl]
    rw [hkey]

theorem c7_amended_witness :
    pyWrap "virgin chad" 25 = .ok ["virgin chad"] ∧
    ((∀ l ∈ (["virgin chad"] : List String),
        l.length ≤ 25 ∨ (l.data ≠ [] ∧ ∀ x ∈ l.data, pySpace6 x = false)) ∧
      ('-' ∉ "virgin chad".data →
        wordsOf (joinNL ["virgin chad"]) = wordsOf "virgin chad")) :=
  ⟨by rfl, c7_amended_wrap "virgin chad" 25 ["virgin chad"] (by rfl)⟩
